import Mathlib

/-!
Verification of the musli wire codec and zero-copy layer.

This file shallowly embeds the repository's source:

* `crates/musli-wire/src/types.rs` — the `Tag`/`Kind` single-byte type tag
  (3-bit kind, 5-bit data, `DATA_MASK = 31`), embedded below as `Kind`, `Tag`
  and their operations (machine bytes become `Nat` with explicit masking).
* `crates/musli-wire/src/encoding.rs` — the `to_vec`/`from_slice` entry
  points; the wire encoder/decoder bodies they dispatch to are not part of
  the visible slice and are modelled from the spec (see `wencode`/`wdecode`).
* `crates/musli-wire/src/tests.rs` — the framing tests; the `crate::tag`
  module these tests import (with `MAX_INLINE_LEN = 62` and `Kind::Pack`)
  is absent from the slice and is modelled from the spec in namespace `tag`.
* `crates/musli-zerocopy/src/ref.rs` — `Ref`/`Ptr` (namespace `zerocopy`).
* `crates/musli/src/en/sequence_encoder.rs` — the `SequenceEncoder` trait
  and its provided `push` method.
-/

/-- Embeds `DATA_MASK` from `types.rs`: `0b000_11111`. -/
def DATA_MASK : Nat := 31

/-- Embeds the `Kind` enumeration from `types.rs` (3 most significant bits of
a tag byte); `Kind.toU8` below carries the `repr(u8)` discriminants. -/
inductive Kind where
  | Byte
  | Prefix
  | Sequence
  | PairSequence
  | Continuation
  | Unknown1
  | Unknown2
  | Unknown3
deriving DecidableEq

/-- The `repr(u8)` discriminant of each `Kind` variant (`0b000_00000` through
`0b111_00000`). -/
def Kind.toU8 : Kind → Nat
  | .Byte => 0
  | .Prefix => 32
  | .Sequence => 64
  | .PairSequence => 96
  | .Continuation => 128
  | .Unknown1 => 160
  | .Unknown2 => 192
  | .Unknown3 => 224

/-- Embeds `struct Tag { repr: u8 }` from `types.rs`; the byte is a `Nat`
kept below 256 by the operations themselves. -/
structure Tag where
  repr : Nat
deriving DecidableEq

/-- Embeds `Tag::new`: `kind as u8 | if data < DATA_MASK { data } else { DATA_MASK }`. -/
def Tag.new (kind : Kind) (data : Nat) : Tag :=
  ⟨kind.toU8 ||| (if data < DATA_MASK then data else DATA_MASK)⟩

/-- Embeds `Tag::empty`: `kind as u8 | DATA_MASK`. -/
def Tag.empty (kind : Kind) : Tag :=
  ⟨kind.toU8 ||| DATA_MASK⟩

/-- The inverse image of the `unsafe transmute` in `Tag::kind`: maps a masked
byte (`repr & !DATA_MASK`, i.e. a multiple of 32 below 256) back to the `Kind`
variant carrying that discriminant.  Total on all eight 3-bit patterns, which
is exactly the safety argument recorded in the source comment. -/
def Kind.ofMasked (n : Nat) : Kind :=
  if n = 0 then .Byte
  else if n = 32 then .Prefix
  else if n = 64 then .Sequence
  else if n = 96 then .PairSequence
  else if n = 128 then .Continuation
  else if n = 160 then .Unknown1
  else if n = 192 then .Unknown2
  else .Unknown3

/-- Embeds `Tag::kind`: `transmute(self.repr & !DATA_MASK)`; `224` is the u8
complement `!DATA_MASK`. -/
def Tag.kind (t : Tag) : Kind :=
  Kind.ofMasked (t.repr &&& 224)

/-- Embeds `Tag::data_raw`: `self.repr & DATA_MASK`. -/
def Tag.data_raw (t : Tag) : Nat :=
  t.repr &&& DATA_MASK

/-- Embeds `Tag::from_byte`. -/
def Tag.from_byte (repr : Nat) : Tag :=
  ⟨repr⟩

/-- Embeds `Tag::byte`. -/
def Tag.byte (t : Tag) : Nat :=
  t.repr

/-- Embeds `Tag::with_len`: embed `len` if it fits below `DATA_MASK`. -/
def Tag.with_len (kind : Kind) (len : Nat) : Tag × Bool :=
  if len < DATA_MASK then (Tag.new kind len, true)
  else (Tag.new kind DATA_MASK, false)

/-- Embeds `Tag::with_byte`. -/
def Tag.with_byte (kind : Kind) (len : Nat) : Tag × Bool :=
  if len < DATA_MASK then (Tag.new kind len, true)
  else (Tag.new kind DATA_MASK, false)

/-- Embeds `Tag::data`: `None` when `data_raw == DATA_MASK`. -/
def Tag.data (t : Tag) : Option Nat :=
  if t.data_raw = DATA_MASK then none else some t.data_raw

/-! ### The wire codec

The bodies of `WireEncoder`/`WireDecoder` and the `Variable` integer encoding
(`musli-binary-common`) that `encoding.rs` dispatches to are not part of the
visible slice; per the spec they are modelled below over the self-describing
wire value domain `Value`, using the `Tag` embedded from `types.rs`. -/

/-- Modelled from the spec: the error conditions of the wire decoder.
Reading past the end of the buffer fails with a "buffer exhausted" condition
(`SliceReaderError` / `BufferExhausted`); a tag whose 3-bit kind is one of the
reserved `Unknown` patterns fails decode with an "unsupported kind" error. -/
inductive WErr where
  | bufferExhausted
  | unsupportedKind
deriving DecidableEq

/-- Modelled from the spec: continuation encoding of an unsigned integer —
groups of 7 bits, low-to-high, the top bit of each byte set except on the
final byte (`musli_binary_common::int::continuation`, absent from the slice). -/
def cencode (n : Nat) : List Nat :=
  if h : n < 128 then [n]
  else (n % 128 + 128) :: cencode (n / 128)
decreasing_by exact Nat.div_lt_self (by omega) (by omega)

/-- Modelled from the spec: continuation decoding — read bytes while the top
bit is set, reassembling 7-bit groups low-to-high; fail with the buffer
exhausted condition if the stream ends mid-sequence. -/
def cdecode : List Nat → Except WErr (Nat × List Nat)
  | [] => .error .bufferExhausted
  | b :: rest =>
    if b < 128 then .ok (b, rest)
    else
      match cdecode rest with
      | .error e => .error e
      | .ok (n, r) => .ok ((b - 128) + 128 * n, r)

/-- Modelled from the spec: the zigzag transform mapping signed integers to
unsigned so that small-magnitude values stay small
(`musli_binary_common::int::zigzag`, absent from the slice). -/
def zigzag (i : Int) : Nat :=
  if 0 ≤ i then (2 * i).toNat else (-(2 * i) - 1).toNat

/-- Modelled from the spec: the inverse of the zigzag transform. -/
def unzigzag (n : Nat) : Int :=
  if n % 2 = 0 then (n / 2 : Nat) else -((n / 2 : Nat) : Int) - 1

mutual

/-- Modelled from the spec: the self-describing wire value domain — single
bytes, continuation-encoded integers, length-prefixed byte strings,
length-prefixed sequences and pair sequences (structs/maps).  Machine
integers are unbounded `Nat`/`Int` in the model. -/
inductive Value where
  | vbyte : Nat → Value
  | vint : Int → Value
  | vbytes : List Nat → Value
  | vseq : VList → Value
  | vpairs : VPairs → Value

/-- Spine of a sequence of wire values (a mutual inductive sidesteps nested
`List` recursion). -/
inductive VList where
  | nil : VList
  | cons : Value → VList → VList

/-- Spine of a sequence of key-value pairs of wire values. -/
inductive VPairs where
  | nil : VPairs
  | cons : Value → Value → VPairs → VPairs

end

/-- Number of elements of a `VList`. -/
def VList.len : VList → Nat
  | .nil => 0
  | .cons _ t => t.len + 1

/-- Number of pairs of a `VPairs`. -/
def VPairs.len : VPairs → Nat
  | .nil => 0
  | .cons _ _ t => t.len + 1

mutual

/-- Modelled from the spec: the wire encoder under the default (`Variable`)
configuration.  Each value writes a tag byte via `Tag::new`/`Tag::empty`
(small data embedded when below `DATA_MASK`, otherwise continuation-encoded
out of line), then its payload. -/
def wencode : Value → List Nat
  | .vbyte b =>
    if b < DATA_MASK then [(Tag.new .Byte b).byte]
    else (Tag.empty .Byte).byte :: cencode b
  | .vint i =>
    if zigzag i < DATA_MASK then [(Tag.new .Continuation (zigzag i)).byte]
    else (Tag.empty .Continuation).byte :: cencode (zigzag i)
  | .vbytes bs =>
    if bs.length < DATA_MASK then (Tag.new .Prefix bs.length).byte :: bs
    else (Tag.empty .Prefix).byte :: (cencode bs.length ++ bs)
  | .vseq vs =>
    if vs.len < DATA_MASK then (Tag.new .Sequence vs.len).byte :: wencodeL vs
    else (Tag.empty .Sequence).byte :: (cencode vs.len ++ wencodeL vs)
  | .vpairs ps =>
    if ps.len < DATA_MASK then
      (Tag.new .PairSequence ps.len).byte :: wencodeP ps
    else (Tag.empty .PairSequence).byte :: (cencode ps.len ++ wencodeP ps)

/-- Concatenated encodings of the elements of a sequence. -/
def wencodeL : VList → List Nat
  | .nil => []
  | .cons v t => wencode v ++ wencodeL t

/-- Concatenated encodings of the pairs of a pair sequence. -/
def wencodeP : VPairs → List Nat
  | .nil => []
  | .cons k v t => wencode k ++ (wencode v ++ wencodeP t)

end

/-- Modelled from the spec: read the length/count following a tag — embedded
in the tag's data when present, otherwise continuation-encoded next. -/
def readUsize (t : Tag) (input : List Nat) : Except WErr (Nat × List Nat) :=
  match t.data with
  | some d => .ok (d, input)
  | none => cdecode input

mutual

/-- Modelled from the spec: the wire decoder under the default configuration.
Reads one tag byte, branches on its `Kind`, reads the out-of-line
length/value when the tag's data is `DATA_MASK`, then the payload; reading
past the end of the input fails with the buffer exhausted condition, and a
reserved `Unknown` kind fails with the unsupported-kind condition.  `fuel`
is a termination artifact only (the Rust decoder recurses on the stream):
entry points pass fuel strictly larger than any possible number of decode
steps for the given input. -/
def wdecode : Nat → List Nat → Except WErr (Value × List Nat)
  | 0, _ => .error .bufferExhausted
  | _ + 1, [] => .error .bufferExhausted
  | fuel + 1, b :: input =>
    match (Tag.from_byte b).kind with
    | .Byte =>
      match (Tag.from_byte b).data with
      | some d => .ok (.vbyte d, input)
      | none =>
        match cdecode input with
        | .error e => .error e
        | .ok (n, r) => .ok (.vbyte n, r)
    | .Continuation =>
      match (Tag.from_byte b).data with
      | some d => .ok (.vint (unzigzag d), input)
      | none =>
        match cdecode input with
        | .error e => .error e
        | .ok (n, r) => .ok (.vint (unzigzag n), r)
    | .Prefix =>
      match readUsize (Tag.from_byte b) input with
      | .error e => .error e
      | .ok (len, r) =>
        if len ≤ r.length then .ok (.vbytes (r.take len), r.drop len)
        else .error .bufferExhausted
    | .Sequence =>
      match readUsize (Tag.from_byte b) input with
      | .error e => .error e
      | .ok (count, r) =>
        match wdecodeL fuel count r with
        | .error e => .error e
        | .ok (vs, r2) => .ok (.vseq vs, r2)
    | .PairSequence =>
      match readUsize (Tag.from_byte b) input with
      | .error e => .error e
      | .ok (count, r) =>
        match wdecodeP fuel count r with
        | .error e => .error e
        | .ok (ps, r2) => .ok (.vpairs ps, r2)
    | .Unknown1 => .error .unsupportedKind
    | .Unknown2 => .error .unsupportedKind
    | .Unknown3 => .error .unsupportedKind

/-- Decode `count` sequence elements. -/
def wdecodeL : Nat → Nat → List Nat → Except WErr (VList × List Nat)
  | 0, _, _ => .error .bufferExhausted
  | _ + 1, 0, input => .ok (.nil, input)
  | fuel + 1, count + 1, input =>
    match wdecode fuel input with
    | .error e => .error e
    | .ok (v, r) =>
      match wdecodeL fuel count r with
      | .error e => .error e
      | .ok (vs, r2) => .ok (.cons v vs, r2)

/-- Decode `count` key-value pairs. -/
def wdecodeP : Nat → Nat → List Nat → Except WErr (VPairs × List Nat)
  | 0, _, _ => .error .bufferExhausted
  | _ + 1, 0, input => .ok (.nil, input)
  | fuel + 1, count + 1, input =>
    match wdecode fuel input with
    | .error e => .error e
    | .ok (k, r) =>
      match wdecode fuel r with
      | .error e => .error e
      | .ok (v, r2) =>
        match wdecodeP fuel count r2 with
        | .error e => .error e
        | .ok (ps, r3) => .ok (.cons k v ps, r3)

end

/-- Embeds `WireEncoding::to_vec` (via `encoding.rs`) over the modelled
encoder: encode the value to a byte vector under the default configuration. -/
def to_vec (v : Value) : List Nat :=
  wencode v

/-- Embeds `WireEncoding::from_slice` (via `encoding.rs`) over the modelled
decoder: decode a value from the given byte slice under the default
configuration (trailing bytes are not an error, as in the source).  The fuel
`2 * bytes.length + 1` strictly exceeds the number of decode steps possible
on an input of this length, so it never runs out. -/
def from_slice (bytes : List Nat) : Except WErr Value :=
  match wdecode (2 * bytes.length + 1) bytes with
  | .error e => .error e
  | .ok (v, _) => .ok v

mutual

/-- Decode-step budget sufficient for a value: one step per tag plus one per
sequence spine node. -/
def weight : Value → Nat
  | .vbyte _ => 1
  | .vint _ => 1
  | .vbytes _ => 1
  | .vseq vs => weightL vs + 1
  | .vpairs ps => weightP ps + 1

/-- Decode-step budget sufficient for a sequence spine. -/
def weightL : VList → Nat
  | .nil => 1
  | .cons v t => max (weight v) (weightL t) + 1

/-- Decode-step budget sufficient for a pair-sequence spine. -/
def weightP : VPairs → Nat
  | .nil => 1
  | .cons k v t => max (weight k) (max (weight v) (weightP t)) + 1

end

/-! ### Configurations (`encoding.rs`)

`encoding.rs` declares the configuration space as phantom types:
`WireEncoding<I, L>` pairs an integer encoding `I` (`Variable`, or `Fixed<E>`
with a byte order) with a length encoding `L` (`Variable`, or
`FixedLength<u32>`/`FixedLength<u64>`), built with `with_*` methods.  The
phantom types become data below; the semantics of `Fixed`/`FixedLength`
(absent from the slice) are modelled from the spec. -/

/-- Embeds the byte orders of `musli_binary_common::int`: big-endian,
little-endian; `NetworkEndian` is big-endian (per the spec's
"network/big-endian default"). -/
inductive Endianness where
  | little
  | big
deriving DecidableEq

/-- Embeds the `IntegerEncoding` alternatives declared in `encoding.rs`:
`Variable` (zigzag + continuation) or `Fixed<E>` (raw fixed-width bytes in
byte order `E`). -/
inductive IntegerEncoding where
  | Variable
  | Fixed (e : Endianness)
deriving DecidableEq

/-- Embeds the `UsizeEncoding` alternatives declared in `encoding.rs`:
`Variable` (continuation) or `FixedLength<T>` (raw fixed-width bytes; the
width is 4 for `u32`, 8 for `u64`). -/
inductive UsizeEncoding where
  | Variable
  | FixedLength (width : Nat)
deriving DecidableEq

/-- Embeds `WireEncoding<I, L>` from `encoding.rs` with the phantom type
parameters reified as data. -/
structure WireEncoding where
  i : IntegerEncoding
  l : UsizeEncoding
deriving DecidableEq

/-- Embeds `WireEncoding::new`: variable integers and variable lengths. -/
def WireEncoding.new : WireEncoding :=
  ⟨.Variable, .Variable⟩

/-- Embeds the `DEFAULT` configuration constant. -/
def DEFAULT : WireEncoding :=
  WireEncoding.new

/-- Embeds `WireEncoding::with_variable_integers`. -/
def WireEncoding.with_variable_integers (c : WireEncoding) : WireEncoding :=
  ⟨.Variable, c.l⟩

/-- Embeds `WireEncoding::with_fixed_integers` (default byte order is
network endian, i.e. big). -/
def WireEncoding.with_fixed_integers (c : WireEncoding) : WireEncoding :=
  ⟨.Fixed .big, c.l⟩

/-- Embeds `WireEncoding::with_fixed_integers_le`. -/
def WireEncoding.with_fixed_integers_le (c : WireEncoding) : WireEncoding :=
  ⟨.Fixed .little, c.l⟩

/-- Embeds `WireEncoding::with_fixed_integers_be`. -/
def WireEncoding.with_fixed_integers_be (c : WireEncoding) : WireEncoding :=
  ⟨.Fixed .big, c.l⟩

/-- Embeds `WireEncoding::with_fixed_integers_ne` (network endian is big
endian). -/
def WireEncoding.with_fixed_integers_ne (c : WireEncoding) : WireEncoding :=
  ⟨.Fixed .big, c.l⟩

/-- Embeds `WireEncoding::with_variable_lengths`. -/
def WireEncoding.with_variable_lengths (c : WireEncoding) : WireEncoding :=
  ⟨c.i, .Variable⟩

/-- Embeds `WireEncoding::with_fixed_lengths` (`FixedLength<u32>`). -/
def WireEncoding.with_fixed_lengths (c : WireEncoding) : WireEncoding :=
  ⟨c.i, .FixedLength 4⟩

/-- Embeds `WireEncoding::with_fixed_lengths64` (`FixedLength<u64>`). -/
def WireEncoding.with_fixed_lengths64 (c : WireEncoding) : WireEncoding :=
  ⟨c.i, .FixedLength 8⟩

/-! ### Fixed-width numeric codecs (modelled from the spec) -/

/-- Little-endian base-256 digits of `n`, exactly `w` bytes. -/
def leBytes : Nat → Nat → List Nat
  | 0, _ => []
  | w + 1, n => (n % 256) :: leBytes w (n / 256)

/-- Reassemble a little-endian byte list into a natural. -/
def leVal : List Nat → Nat
  | [] => 0
  | b :: t => b + 256 * leVal t

/-- Modelled from the spec: `Fixed<E>` encoding writes the integer's raw
bytes — exactly `w` of them — in byte order `e`. -/
def fixedEncode (e : Endianness) (w n : Nat) : List Nat :=
  match e with
  | .little => leBytes w n
  | .big => (leBytes w n).reverse

/-- Modelled from the spec: `Fixed<E>` decoding reads exactly `w` bytes and
reinterprets them, failing with the buffer exhausted condition if fewer
remain. -/
def fixedDecode (e : Endianness) (w : Nat) (input : List Nat) :
    Except WErr (Nat × List Nat) :=
  if input.length < w then .error .bufferExhausted
  else
    .ok (leVal (match e with
      | .little => input.take w
      | .big => (input.take w).reverse), input.drop w)

/-- The 64-bit two's-complement representative of an integer (the model's
carrier width for `Fixed` integer encoding; the source's width is the
encoded type's `size_of`). -/
def toTwos (i : Int) : Nat :=
  (i % 18446744073709551616).toNat

/-- Reinterpret a 64-bit two's-complement representative as an integer. -/
def fromTwos (u : Nat) : Int :=
  if u < 9223372036854775808 then (u : Int) else (u : Int) - 18446744073709551616

/-- The configured length codec: encoding side. -/
def uencode : UsizeEncoding → Nat → List Nat
  | .Variable, n => cencode n
  | .FixedLength w, n => fixedEncode .big w n

/-- The configured length codec: decoding side. -/
def udecode : UsizeEncoding → List Nat → Except WErr (Nat × List Nat)
  | .Variable, input => cdecode input
  | .FixedLength w, input => fixedDecode .big w input

/-- Whether a length value is representable under the configured length
encoding (`Variable` is unbounded; `FixedLength` requires the value to fit
its width). -/
def lenOK : UsizeEncoding → Nat → Bool
  | .Variable, _ => true
  | .FixedLength w, n => decide (n < 256 ^ w)

/-- The configured integer codec: encoding side (zigzag + continuation for
`Variable`, raw two's-complement fixed bytes for `Fixed<E>`). -/
def iencode : IntegerEncoding → Int → List Nat
  | .Variable, i => cencode (zigzag i)
  | .Fixed e, i => fixedEncode e 8 (toTwos i)

/-- The configured integer codec: decoding side. -/
def idecode : IntegerEncoding → List Nat → Except WErr (Int × List Nat)
  | .Variable, input =>
    match cdecode input with
    | .error e => .error e
    | .ok (n, r) => .ok (unzigzag n, r)
  | .Fixed e, input =>
    match fixedDecode e 8 input with
    | .error er => .error er
    | .ok (n, r) => .ok (fromTwos n, r)

/-- Whether an integer value is representable under the configured integer
encoding (`Variable` is unbounded; `Fixed` requires the 64-bit carrier
range). -/
def intOK : IntegerEncoding → Int → Bool
  | .Variable, _ => true
  | .Fixed _, i =>
    decide (-9223372036854775808 ≤ i ∧ i < 9223372036854775808)

mutual

/-- Whether a wire value is encodable under the given configuration: every
integer fits the configured integer encoding and every length/count fits the
configured length encoding (the spec's round-trip law is stated "for all
values V encodable under configuration C"). -/
def encodableB (C : WireEncoding) : Value → Bool
  | .vbyte b => lenOK C.l b
  | .vint i => intOK C.i i
  | .vbytes bs => lenOK C.l bs.length
  | .vseq vs => lenOK C.l vs.len && encodableLB C vs
  | .vpairs ps => lenOK C.l ps.len && encodablePB C ps

/-- Encodability of every element of a sequence spine. -/
def encodableLB (C : WireEncoding) : VList → Bool
  | .nil => true
  | .cons v t => encodableB C v && encodableLB C t

/-- Encodability of every component of a pair-sequence spine. -/
def encodablePB (C : WireEncoding) : VPairs → Bool
  | .nil => true
  | .cons k v t => encodableB C k && encodableB C v && encodablePB C t

end

/-- A wire value is encodable under a configuration. -/
def WEncodable (C : WireEncoding) (v : Value) : Prop :=
  encodableB C v = true

mutual

/-- Modelled from the spec: the wire encoder under an arbitrary
configuration.  The tag layer is unchanged (small data embedded below
`DATA_MASK`); what varies with the configuration is how out-of-line values
and lengths are written — via the configured integer encoding
(`iencode`) and length encoding (`uencode`).  At `DEFAULT` this coincides
with `wencode`. -/
def wencodeC (C : WireEncoding) : Value → List Nat
  | .vbyte b =>
    if b < DATA_MASK then [(Tag.new .Byte b).byte]
    else (Tag.empty .Byte).byte :: uencode C.l b
  | .vint i =>
    match C.i with
    | .Variable =>
      if zigzag i < DATA_MASK then [(Tag.new .Continuation (zigzag i)).byte]
      else (Tag.empty .Continuation).byte :: iencode .Variable i
    | .Fixed e => (Tag.empty .Continuation).byte :: iencode (.Fixed e) i
  | .vbytes bs =>
    if bs.length < DATA_MASK then (Tag.new .Prefix bs.length).byte :: bs
    else (Tag.empty .Prefix).byte :: (uencode C.l bs.length ++ bs)
  | .vseq vs =>
    if vs.len < DATA_MASK then (Tag.new .Sequence vs.len).byte :: wencodeCL C vs
    else (Tag.empty .Sequence).byte :: (uencode C.l vs.len ++ wencodeCL C vs)
  | .vpairs ps =>
    if ps.len < DATA_MASK then
      (Tag.new .PairSequence ps.len).byte :: wencodeCP C ps
    else (Tag.empty .PairSequence).byte :: (uencode C.l ps.len ++ wencodeCP C ps)

/-- Concatenated configured encodings of the elements of a sequence. -/
def wencodeCL (C : WireEncoding) : VList → List Nat
  | .nil => []
  | .cons v t => wencodeC C v ++ wencodeCL C t

/-- Concatenated configured encodings of the pairs of a pair sequence. -/
def wencodeCP (C : WireEncoding) : VPairs → List Nat
  | .nil => []
  | .cons k v t => wencodeC C k ++ (wencodeC C v ++ wencodeCP C t)

end

/-- Read the length/count following a tag under a configuration: embedded in
the tag's data when present, otherwise via the configured length encoding. -/
def readUsizeC (C : WireEncoding) (t : Tag) (input : List Nat) :
    Except WErr (Nat × List Nat) :=
  match t.data with
  | some d => .ok (d, input)
  | none => udecode C.l input

mutual

/-- Modelled from the spec: the wire decoder under an arbitrary
configuration, mirroring `wdecodeC`'s encoder: the tag layer is unchanged,
and out-of-line values and lengths are read via the configured integer and
length encodings.  At `DEFAULT` this coincides with `wdecode`. -/
def wdecodeC (C : WireEncoding) : Nat → List Nat → Except WErr (Value × List Nat)
  | 0, _ => .error .bufferExhausted
  | _ + 1, [] => .error .bufferExhausted
  | fuel + 1, b :: input =>
    match (Tag.from_byte b).kind with
    | .Byte =>
      match (Tag.from_byte b).data with
      | some d => .ok (.vbyte d, input)
      | none =>
        match udecode C.l input with
        | .error e => .error e
        | .ok (n, r) => .ok (.vbyte n, r)
    | .Continuation =>
      match (Tag.from_byte b).data with
      | some d => .ok (.vint (unzigzag d), input)
      | none =>
        match idecode C.i input with
        | .error e => .error e
        | .ok (n, r) => .ok (.vint n, r)
    | .Prefix =>
      match readUsizeC C (Tag.from_byte b) input with
      | .error e => .error e
      | .ok (len, r) =>
        if len ≤ r.length then .ok (.vbytes (r.take len), r.drop len)
        else .error .bufferExhausted
    | .Sequence =>
      match readUsizeC C (Tag.from_byte b) input with
      | .error e => .error e
      | .ok (count, r) =>
        match wdecodeCL C fuel count r with
        | .error e => .error e
        | .ok (vs, r2) => .ok (.vseq vs, r2)
    | .PairSequence =>
      match readUsizeC C (Tag.from_byte b) input with
      | .error e => .error e
      | .ok (count, r) =>
        match wdecodeCP C fuel count r with
        | .error e => .error e
        | .ok (ps, r2) => .ok (.vpairs ps, r2)
    | .Unknown1 => .error .unsupportedKind
    | .Unknown2 => .error .unsupportedKind
    | .Unknown3 => .error .unsupportedKind

/-- Decode `count` sequence elements under a configuration. -/
def wdecodeCL (C : WireEncoding) : Nat → Nat → List Nat → Except WErr (VList × List Nat)
  | 0, _, _ => .error .bufferExhausted
  | _ + 1, 0, input => .ok (.nil, input)
  | fuel + 1, count + 1, input =>
    match wdecodeC C fuel input with
    | .error e => .error e
    | .ok (v, r) =>
      match wdecodeCL C fuel count r with
      | .error e => .error e
      | .ok (vs, r2) => .ok (.cons v vs, r2)

/-- Decode `count` key-value pairs under a configuration. -/
def wdecodeCP (C : WireEncoding) : Nat → Nat → List Nat → Except WErr (VPairs × List Nat)
  | 0, _, _ => .error .bufferExhausted
  | _ + 1, 0, input => .ok (.nil, input)
  | fuel + 1, count + 1, input =>
    match wdecodeC C fuel input with
    | .error e => .error e
    | .ok (k, r) =>
      match wdecodeC C fuel r with
      | .error e => .error e
      | .ok (v, r2) =>
        match wdecodeCP C fuel count r2 with
        | .error e => .error e
        | .ok (ps, r3) => .ok (.cons k v ps, r3)

end

/-- Embeds `WireEncoding::to_vec` over the configured modelled encoder. -/
def WireEncoding.to_vec (C : WireEncoding) (v : Value) : List Nat :=
  wencodeC C v

/-- Embeds `WireEncoding::from_slice` over the configured modelled decoder
(fuel as in `from_slice`: strictly more than any possible number of decode
steps for the input length). -/
def WireEncoding.from_slice (C : WireEncoding) (bytes : List Nat) :
    Except WErr Value :=
  match wdecodeC C (2 * bytes.length + 1) bytes with
  | .error e => .error e
  | .ok (v, _) => .ok v

/-- A concrete wire value used to witness the configured round-trip law. -/
def testValue : Value :=
  .vseq (.cons (.vint (-5)) (.cons (.vbytes (List.replicate 40 7)) .nil))

/-- A concrete non-default configuration (little-endian fixed integers,
32-bit fixed lengths), reached through the `with_*` builders. -/
def testConfig : WireEncoding :=
  WireEncoding.new.with_fixed_integers_le.with_fixed_lengths

/-! ### Induction measures -/

mutual

/-- Structural size of a wire value, used as the induction measure for the
codec proofs. -/
def msize : Value → Nat
  | .vbyte _ => 1
  | .vint _ => 1
  | .vbytes _ => 1
  | .vseq vs => msizeL vs + 1
  | .vpairs ps => msizeP ps + 1

/-- Structural size of a sequence spine. -/
def msizeL : VList → Nat
  | .nil => 1
  | .cons v t => msize v + msizeL t + 1

/-- Structural size of a pair-sequence spine. -/
def msizeP : VPairs → Nat
  | .nil => 1
  | .cons k v t => msize k + msize v + msizeP t + 1

end


/-! ### The `crate::tag` module used by the framing tests

`tests.rs` imports `crate::tag::{Kind, Tag, MAX_INLINE_LEN}` with a `Pack`
kind; that module is absent from the visible slice (the slice's `types.rs`
holds an older, incompatible 5-bit layout), so it is modelled from the spec
here: `MAX_INLINE_LEN = 62` forces a 6-bit data field (`DATA_MASK = 63`,
2-bit kind in the top bits). -/

namespace tag

/-- Modelled from the spec: the data mask of the tag module the tests use —
6 bits, so that `MAX_INLINE_LEN = 62` is an embeddable length. -/
def DATA_MASK : Nat := 63

/-- Modelled from the spec: the largest length representable inline
(`DATA_MASK` itself is reserved to mean "not embedded"). -/
def MAX_INLINE_LEN : Nat := 62

/-- Modelled from the spec: the 2-bit kinds of the tag module the tests use,
including `Pack` for power-of-two packed buffers. -/
inductive Kind where
  | Prefix
  | Sequence
  | Continuation
  | Pack
deriving DecidableEq

/-- The discriminant of each kind, occupying the 2 MSBs of the tag byte. -/
def Kind.toU8 : Kind → Nat
  | .Prefix => 0
  | .Sequence => 64
  | .Continuation => 128
  | .Pack => 192

/-- Modelled from the spec: a tag byte of the 2-bit-kind layout. -/
structure Tag where
  repr : Nat
deriving DecidableEq

/-- Modelled from the spec: construct a tag, clamping data to `DATA_MASK`. -/
def Tag.new (kind : Kind) (data : Nat) : Tag :=
  ⟨kind.toU8 ||| (if data < DATA_MASK then data else DATA_MASK)⟩

/-- The tag as a byte. -/
def Tag.byte (t : Tag) : Nat :=
  t.repr

/-- Construct a tag from a byte. -/
def Tag.from_byte (repr : Nat) : Tag :=
  ⟨repr⟩

/-- The kind of a tag (the 2 MSBs). -/
def Tag.kind (t : Tag) : Kind :=
  if t.repr &&& 192 = 0 then .Prefix
  else if t.repr &&& 192 = 64 then .Sequence
  else if t.repr &&& 192 = 128 then .Continuation
  else .Pack

/-- The embedded data of a tag: `none` when the data field is `DATA_MASK`. -/
def Tag.data (t : Tag) : Option Nat :=
  if t.repr &&& DATA_MASK = DATA_MASK then none else some (t.repr &&& DATA_MASK)

/-- Smallest exponent `p` with `n ≤ 2 ^ p` (bounded search keeps the
definition structurally recursive and kernel-computable). -/
def packPow (n : Nat) : Nat :=
  (((List.range 64).filter fun p => n ≤ 2 ^ p).headD 64)

/-- Modelled from the spec: the encoding of the packed inner struct
`Field<N>` (a `#[musli(packed)]` byte array).  A payload of length at most
`MAX_INLINE_LEN` is framed by a `Prefix` tag with the exact length embedded;
a longer payload is framed by a `Pack` tag whose data is the exponent of the
next power of two, with zero padding up to that size. -/
def encodeField (payload : List Nat) : List Nat :=
  if payload.length ≤ MAX_INLINE_LEN then
    (Tag.new .Prefix payload.length).byte :: payload
  else
    (Tag.new .Pack (packPow payload.length)).byte ::
      (payload ++ List.replicate (2 ^ packPow payload.length - payload.length) 0)

/-- Modelled from the spec: the encoding of the three-field test struct
`From { prefix: Some(10), field: Field { value: payload }, suffix: Some(20) }`
under the default configuration — a struct header, then for each field its
numeric key followed by its value (an `Option<u32>` is a one-element
sequence holding a continuation-embedded small integer), the packed field
sitting at byte offset 5. -/
def encodeFrom (payload : List Nat) : List Nat :=
  (Tag.new .Sequence 3).byte ::
  (Tag.new .Continuation 0).byte ::
  (Tag.new .Sequence 1).byte ::
  (Tag.new .Continuation 10).byte ::
  (Tag.new .Continuation 1).byte ::
  (encodeField payload ++
    [(Tag.new .Continuation 2).byte,
     (Tag.new .Sequence 1).byte,
     (Tag.new .Continuation 20).byte])

end tag

/-! ### Zero-copy `Ref`/`Ptr` (`crates/musli-zerocopy/src/ref.rs`) -/

namespace zerocopy

/-- Modelled from the spec: `Ptr` is an untyped byte offset into a buffer
(its numeric width is irrelevant to the claims). -/
structure Ptr where
  offset : Nat
deriving DecidableEq

/-- Embeds `Ptr::ZERO`. -/
def Ptr.ZERO : Ptr :=
  ⟨0⟩

/-- Embeds `Ref<T>` from `ref.rs`: a `Ptr` plus a phantom type parameter.
The constructor stores the pointer and performs no checks of any kind — it
takes no buffer, so no bounds, alignment or bit-pattern validation can
happen here; all validation belongs to the later `load` against a buffer. -/
structure Ref (T : Type) where
  ptr : Ptr
deriving DecidableEq

/-- Embeds `Ref::new`: a total (infallible) function of the pointer alone. -/
def Ref.new (T : Type) (ptr : Ptr) : Ref T :=
  ⟨ptr⟩

/-- Embeds `Ref::zero`. -/
def Ref.zero (T : Type) : Ref T :=
  Ref.new T Ptr.ZERO

end zerocopy

/-! ### `SequenceEncoder` (`crates/musli/src/en/sequence_encoder.rs`) -/

/-- Embeds the `SequenceEncoder` trait: an abstract stateful encoder with
`encode_element` (advance to the next element, yielding an element encoder)
and the element encoder's `encode` (encode one value through it).  State
threading models the `&mut self` borrow; `Except` models `Result`. -/
structure SequenceEncoder (σ El Ok ε V : Type) where
  encode_element : σ → Except ε (El × σ)
  encode : El → V → σ → Except ε (Ok × σ)

/-- Embeds the provided method `SequenceEncoder::push`:
`self.encode_element()?.encode(value)?; Ok(())`. -/
def SequenceEncoder.push {σ El Ok ε V : Type} (E : SequenceEncoder σ El Ok ε V)
    (s : σ) (v : V) : Except ε (Unit × σ) :=
  match E.encode_element s with
  | .error e => .error e
  | .ok (el, s1) =>
    match E.encode el v s1 with
    | .error e => .error e
    | .ok (_, s2) => .ok ((), s2)

/-- A concrete `SequenceEncoder` instance over naturals, used to witness the
`push` characterization at a specific input. -/
def egEncoder : SequenceEncoder Nat Unit Unit Nat Nat :=
  { encode_element := fun s => .ok ((), s + 1)
    encode := fun _ v s => .ok ((), s + v) }

/-! ### Shared facts about the tag byte -/

theorem Tag.from_byte_byte (t : Tag) : Tag.from_byte t.byte = t := rfl

theorem Kind.toU8_lt (k : Kind) : k.toU8 ≤ 224 := by
  cases k <;> simp [Kind.toU8]

/-- The kind discriminant occupies only the 3 MSBs: or-ing in 5-bit data and
masking with `!DATA_MASK` recovers the discriminant. -/
theorem kind_lor_and (k : Kind) (c : Nat) (hc : c ≤ 31) :
    (k.toU8 ||| c) &&& 224 = k.toU8 := by
  cases k <;> (interval_cases c <;> decide)

/-- Or-ing 5-bit data into a kind discriminant and masking with `DATA_MASK`
recovers the data. -/
theorem data_lor_and (k : Kind) (c : Nat) (hc : c ≤ 31) :
    (k.toU8 ||| c) &&& 31 = c := by
  cases k <;> (interval_cases c <;> decide)

theorem Kind.ofMasked_toU8 (k : Kind) : Kind.ofMasked k.toU8 = k := by
  cases k <;> decide

theorem Tag.new_kind (k : Kind) (d : Nat) : (Tag.new k d).kind = k := by
  have hc : (if d < DATA_MASK then d else DATA_MASK) ≤ 31 := by
    unfold DATA_MASK; split <;> omega
  unfold Tag.new Tag.kind
  rw [kind_lor_and k _ hc, Kind.ofMasked_toU8]

theorem Tag.new_data (k : Kind) (d : Nat) :
    (Tag.new k d).data = if d < DATA_MASK then some d else none := by
  have hc : (if d < DATA_MASK then d else DATA_MASK) ≤ 31 := by
    unfold DATA_MASK; split <;> omega
  unfold Tag.new Tag.data Tag.data_raw
  simp only [DATA_MASK] at hc ⊢
  rw [data_lor_and k _ hc]
  by_cases h : d < 31
  · simp only [if_pos h]
    have : d ≠ 31 := by omega
    simp [this]
  · simp [h]

theorem Tag.empty_kind (k : Kind) : (Tag.empty k).kind = k := by
  unfold Tag.empty Tag.kind
  rw [show (DATA_MASK : Nat) = 31 from rfl, kind_lor_and k 31 (by omega),
    Kind.ofMasked_toU8]

theorem Tag.empty_data (k : Kind) : (Tag.empty k).data = none := by
  unfold Tag.empty Tag.data Tag.data_raw
  rw [show (DATA_MASK : Nat) = 31 from rfl, data_lor_and k 31 (by omega)]
  simp

/-! ### Correctness of the continuation encoding -/

theorem cdecode_cencode (n : Nat) : ∀ rest, cdecode (cencode n ++ rest) = .ok (n, rest) := by
  induction n using Nat.strong_induction_on with
  | _ n ih =>
    intro rest
    by_cases h : n < 128
    · rw [cencode]
      simp [h, cdecode]
    · rw [cencode]
      simp only [dif_neg h, List.cons_append, cdecode]
      have hb : ¬ (n % 128 + 128 < 128) := by omega
      rw [if_neg hb, ih (n / 128) (Nat.div_lt_self (by omega) (by omega)) rest]
      show Except.ok (n % 128 + 128 - 128 + 128 * (n / 128), rest) = Except.ok (n, rest)
      have harith : n % 128 + 128 - 128 + 128 * (n / 128) = n := by omega
      rw [harith]

/-- A strict prefix of a continuation encoding ends mid-sequence: decoding it
exhausts the buffer. -/
theorem cencode_trunc (n : Nat) :
    ∀ p q, cencode n = p ++ q → q ≠ [] → cdecode p = .error .bufferExhausted := by
  induction n using Nat.strong_induction_on with
  | _ n ih =>
    intro p q henc hq
    by_cases h : n < 128
    · rw [cencode] at henc
      simp only [dif_pos h] at henc
      cases p with
      | nil => rfl
      | cons a p0 =>
        simp only [List.cons_append, List.cons.injEq] at henc
        exact absurd (List.append_eq_nil.mp henc.2.symm).2 hq
    · rw [cencode] at henc
      simp only [dif_neg h, List.cons_append] at henc
      cases p with
      | nil => rfl
      | cons a p0 =>
        simp only [List.cons_append, List.cons.injEq] at henc
        obtain ⟨rfl, henc⟩ := henc
        have hrec := ih (n / 128) (Nat.div_lt_self (by omega) (by omega)) p0 q henc hq
        simp only [cdecode, if_neg (by omega : ¬ (n % 128 + 128 < 128)), hrec]

/-! ### Zigzag -/

theorem unzigzag_zigzag (i : Int) : unzigzag (zigzag i) = i := by
  unfold zigzag unzigzag
  by_cases h : 0 ≤ i
  · simp only [if_pos h]
    split <;> omega
  · simp only [if_neg h]
    split <;> omega

/-! ### Weight bounds -/

theorem weight_pos (v : Value) : 1 ≤ weight v := by
  cases v <;> simp [weight]

theorem weightL_pos (vs : VList) : 1 ≤ weightL vs := by
  cases vs <;> simp [weightL]

theorem weightP_pos (ps : VPairs) : 1 ≤ weightP ps := by
  cases ps <;> simp [weightP]

theorem wencode_length_pos (v : Value) : 1 ≤ (wencode v).length := by
  cases v <;> (simp only [wencode]; split <;> simp)

mutual

theorem weight_le_twice (v : Value) : weight v ≤ 2 * (wencode v).length := by
  cases v with
  | vbyte b => simp only [wencode]; split <;> simp [weight] <;> omega
  | vint i => simp only [wencode]; split <;> simp [weight] <;> omega
  | vbytes bs => simp only [wencode]; split <;> simp [weight] <;> omega
  | vseq vs =>
    have h := weightL_le_twice vs
    simp only [wencode, weight]
    split <;> simp <;> omega
  | vpairs ps =>
    have h := weightP_le_twice ps
    simp only [wencode, weight]
    split <;> simp <;> omega

theorem weightL_le_twice (vs : VList) : weightL vs ≤ 2 * (wencodeL vs).length + 1 := by
  cases vs with
  | nil => simp [weightL, wencodeL]
  | cons v t =>
    have h1 := weight_le_twice v
    have h2 := weightL_le_twice t
    have h3 := wencode_length_pos v
    simp only [weightL, wencodeL, List.length_append]
    omega

theorem weightP_le_twice (ps : VPairs) : weightP ps ≤ 2 * (wencodeP ps).length + 1 := by
  cases ps with
  | nil => simp [weightP, wencodeP]
  | cons k v t =>
    have h1 := weight_le_twice k
    have h2 := weight_le_twice v
    have h3 := weightP_le_twice t
    have h4 := wencode_length_pos k
    simp only [weightP, wencodeP, List.length_append]
    omega

end

/-! ### Decoder step lemmas -/

theorem wdecode_byte_inline (f b : Nat) (hb : b < DATA_MASK) (input : List Nat) :
    wdecode (f + 1) ((Tag.new .Byte b).byte :: input) = .ok (.vbyte b, input) := by
  simp only [wdecode, Tag.from_byte_byte, Tag.new_kind, Tag.new_data, if_pos hb]

theorem wdecode_byte_out_ok (f n : Nat) (input r : List Nat)
    (h : cdecode input = .ok (n, r)) :
    wdecode (f + 1) ((Tag.empty .Byte).byte :: input) = .ok (.vbyte n, r) := by
  simp only [wdecode, Tag.from_byte_byte, Tag.empty_kind, Tag.empty_data, h]

theorem wdecode_byte_out_err (f : Nat) (e : WErr) (input : List Nat)
    (h : cdecode input = .error e) :
    wdecode (f + 1) ((Tag.empty .Byte).byte :: input) = .error e := by
  simp only [wdecode, Tag.from_byte_byte, Tag.empty_kind, Tag.empty_data, h]

theorem wdecode_cont_inline (f d : Nat) (hd : d < DATA_MASK) (input : List Nat) :
    wdecode (f + 1) ((Tag.new .Continuation d).byte :: input) =
      .ok (.vint (unzigzag d), input) := by
  simp only [wdecode, Tag.from_byte_byte, Tag.new_kind, Tag.new_data, if_pos hd]

theorem wdecode_cont_out_ok (f n : Nat) (input r : List Nat)
    (h : cdecode input = .ok (n, r)) :
    wdecode (f + 1) ((Tag.empty .Continuation).byte :: input) =
      .ok (.vint (unzigzag n), r) := by
  simp only [wdecode, Tag.from_byte_byte, Tag.empty_kind, Tag.empty_data, h]

theorem wdecode_cont_out_err (f : Nat) (e : WErr) (input : List Nat)
    (h : cdecode input = .error e) :
    wdecode (f + 1) ((Tag.empty .Continuation).byte :: input) = .error e := by
  simp only [wdecode, Tag.from_byte_byte, Tag.empty_kind, Tag.empty_data, h]

theorem wdecode_prefix_inline (f len : Nat) (hl : len < DATA_MASK) (input : List Nat) :
    wdecode (f + 1) ((Tag.new .Prefix len).byte :: input) =
      if len ≤ input.length then .ok (.vbytes (input.take len), input.drop len)
      else .error .bufferExhausted := by
  simp only [wdecode, Tag.from_byte_byte, Tag.new_kind, readUsize, Tag.new_data,
    if_pos hl]

theorem wdecode_prefix_out_ok (f len : Nat) (input r : List Nat)
    (h : cdecode input = .ok (len, r)) :
    wdecode (f + 1) ((Tag.empty .Prefix).byte :: input) =
      if len ≤ r.length then .ok (.vbytes (r.take len), r.drop len)
      else .error .bufferExhausted := by
  simp only [wdecode, Tag.from_byte_byte, Tag.empty_kind, readUsize, Tag.empty_data, h]

theorem wdecode_prefix_out_err (f : Nat) (e : WErr) (input : List Nat)
    (h : cdecode input = .error e) :
    wdecode (f + 1) ((Tag.empty .Prefix).byte :: input) = .error e := by
  simp only [wdecode, Tag.from_byte_byte, Tag.empty_kind, readUsize, Tag.empty_data, h]

theorem wdecode_seq_inline (f cnt : Nat) (hn : cnt < DATA_MASK) (input : List Nat) :
    wdecode (f + 1) ((Tag.new .Sequence cnt).byte :: input) =
      match wdecodeL f cnt input with
      | .error e => .error e
      | .ok (vs, r2) => .ok (.vseq vs, r2) := by
  simp only [wdecode, Tag.from_byte_byte, Tag.new_kind, readUsize, Tag.new_data,
    if_pos hn]

theorem wdecode_seq_out_ok (f cnt : Nat) (input r : List Nat)
    (h : cdecode input = .ok (cnt, r)) :
    wdecode (f + 1) ((Tag.empty .Sequence).byte :: input) =
      match wdecodeL f cnt r with
      | .error e => .error e
      | .ok (vs, r2) => .ok (.vseq vs, r2) := by
  simp only [wdecode, Tag.from_byte_byte, Tag.empty_kind, readUsize, Tag.empty_data, h]

theorem wdecode_seq_out_err (f : Nat) (e : WErr) (input : List Nat)
    (h : cdecode input = .error e) :
    wdecode (f + 1) ((Tag.empty .Sequence).byte :: input) = .error e := by
  simp only [wdecode, Tag.from_byte_byte, Tag.empty_kind, readUsize, Tag.empty_data, h]

theorem wdecode_pairs_inline (f cnt : Nat) (hn : cnt < DATA_MASK) (input : List Nat) :
    wdecode (f + 1) ((Tag.new .PairSequence cnt).byte :: input) =
      match wdecodeP f cnt input with
      | .error e => .error e
      | .ok (ps, r2) => .ok (.vpairs ps, r2) := by
  simp only [wdecode, Tag.from_byte_byte, Tag.new_kind, readUsize, Tag.new_data,
    if_pos hn]

theorem wdecode_pairs_out_ok (f cnt : Nat) (input r : List Nat)
    (h : cdecode input = .ok (cnt, r)) :
    wdecode (f + 1) ((Tag.empty .PairSequence).byte :: input) =
      match wdecodeP f cnt r with
      | .error e => .error e
      | .ok (ps, r2) => .ok (.vpairs ps, r2) := by
  simp only [wdecode, Tag.from_byte_byte, Tag.empty_kind, readUsize, Tag.empty_data, h]

theorem wdecode_pairs_out_err (f : Nat) (e : WErr) (input : List Nat)
    (h : cdecode input = .error e) :
    wdecode (f + 1) ((Tag.empty .PairSequence).byte :: input) = .error e := by
  simp only [wdecode, Tag.from_byte_byte, Tag.empty_kind, readUsize, Tag.empty_data, h]

theorem wdecode_nil_input (fuel : Nat) : wdecode fuel [] = .error .bufferExhausted := by
  cases fuel <;> simp [wdecode]

theorem wdecodeL_zero (f : Nat) (input : List Nat) :
    wdecodeL (f + 1) 0 input = .ok (.nil, input) := by
  simp [wdecodeL]

theorem wdecodeL_succ_ok (f cnt : Nat) (input r : List Nat) (v : Value)
    (h : wdecode f input = .ok (v, r)) :
    wdecodeL (f + 1) (cnt + 1) input =
      match wdecodeL f cnt r with
      | .error e => .error e
      | .ok (vs, r2) => .ok (.cons v vs, r2) := by
  simp only [wdecodeL, h]

theorem wdecodeL_succ_err (f cnt : Nat) (input : List Nat) (e : WErr)
    (h : wdecode f input = .error e) :
    wdecodeL (f + 1) (cnt + 1) input = .error e := by
  simp only [wdecodeL, h]

theorem wdecodeP_zero (f : Nat) (input : List Nat) :
    wdecodeP (f + 1) 0 input = .ok (.nil, input) := by
  simp [wdecodeP]

theorem wdecodeP_succ_kv (f cnt : Nat) (input r r2 : List Nat) (k v : Value)
    (hk : wdecode f input = .ok (k, r)) (hv : wdecode f r = .ok (v, r2)) :
    wdecodeP (f + 1) (cnt + 1) input =
      match wdecodeP f cnt r2 with
      | .error e => .error e
      | .ok (ps, r3) => .ok (.cons k v ps, r3) := by
  simp only [wdecodeP, hk, hv]

theorem wdecodeP_succ_err1 (f cnt : Nat) (input : List Nat) (e : WErr)
    (h : wdecode f input = .error e) :
    wdecodeP (f + 1) (cnt + 1) input = .error e := by
  simp only [wdecodeP, h]

theorem wdecodeP_succ_err2 (f cnt : Nat) (input r : List Nat) (k : Value) (e : WErr)
    (hk : wdecode f input = .ok (k, r)) (hv : wdecode f r = .error e) :
    wdecodeP (f + 1) (cnt + 1) input = .error e := by
  simp only [wdecodeP, hk, hv]

/-! ### Round-trip -/

/-- Round-trip, proved for values, sequence spines and pair spines at once by
strong induction on the structural size: decoding the encoding (with any
suffix appended and any sufficient fuel) returns the original and the
suffix. -/
theorem rt_main (n : Nat) :
    (∀ v : Value, msize v ≤ n → ∀ fuel rest, weight v ≤ fuel →
      wdecode fuel (wencode v ++ rest) = .ok (v, rest)) ∧
    (∀ vs : VList, msizeL vs ≤ n → ∀ fuel rest, weightL vs ≤ fuel →
      wdecodeL fuel vs.len (wencodeL vs ++ rest) = .ok (vs, rest)) ∧
    (∀ ps : VPairs, msizeP ps ≤ n → ∀ fuel rest, weightP ps ≤ fuel →
      wdecodeP fuel ps.len (wencodeP ps ++ rest) = .ok (ps, rest)) := by
  induction n with
  | zero =>
    refine ⟨fun v hv => ?_, fun vs hvs => ?_, fun ps hps => ?_⟩
    · cases v <;> simp [msize] at hv
    · cases vs <;> simp [msizeL] at hvs
    · cases ps <;> simp [msizeP] at hps
  | succ n ih =>
    obtain ⟨ihv, ihl, ihp⟩ := ih
    refine ⟨fun v hv fuel rest h => ?_, fun vs hvs fuel rest h => ?_,
      fun ps hps fuel rest h => ?_⟩
    · obtain ⟨f, rfl⟩ : ∃ f, fuel = f + 1 := by
        have := weight_pos v
        cases fuel
        · omega
        · exact ⟨_, rfl⟩
      cases v with
      | vbyte b =>
        by_cases hb : b < DATA_MASK
        · simp only [wencode, if_pos hb, List.cons_append, List.nil_append]
          rw [wdecode_byte_inline f b hb rest]
        · simp only [wencode, if_neg hb, List.cons_append]
          rw [wdecode_byte_out_ok f b (cencode b ++ rest) rest
            (cdecode_cencode b rest)]
      | vint i =>
        by_cases hz : zigzag i < DATA_MASK
        · simp only [wencode, if_pos hz, List.cons_append, List.nil_append]
          rw [wdecode_cont_inline f (zigzag i) hz rest, unzigzag_zigzag]
        · simp only [wencode, if_neg hz, List.cons_append]
          rw [wdecode_cont_out_ok f (zigzag i) (cencode (zigzag i) ++ rest) rest
            (cdecode_cencode (zigzag i) rest), unzigzag_zigzag]
      | vbytes bs =>
        by_cases hl : bs.length < DATA_MASK
        · simp only [wencode, if_pos hl, List.cons_append]
          rw [wdecode_prefix_inline f bs.length hl (bs ++ rest),
            if_pos (by simp), List.take_left, List.drop_left]
        · simp only [wencode, if_neg hl, List.cons_append, List.append_assoc]
          rw [wdecode_prefix_out_ok f bs.length (cencode bs.length ++ (bs ++ rest))
            (bs ++ rest) (cdecode_cencode bs.length (bs ++ rest)),
            if_pos (by simp), List.take_left, List.drop_left]
      | vseq vs =>
        have hsz : msizeL vs ≤ n := by simp only [msize] at hv; omega
        have hw : weightL vs ≤ f := by simp only [weight] at h; omega
        by_cases hn : vs.len < DATA_MASK
        · simp only [wencode, if_pos hn, List.cons_append]
          rw [wdecode_seq_inline f vs.len hn (wencodeL vs ++ rest),
            ihl vs hsz f rest hw]
        · simp only [wencode, if_neg hn, List.cons_append, List.append_assoc]
          rw [wdecode_seq_out_ok f vs.len (cencode vs.len ++ (wencodeL vs ++ rest))
            (wencodeL vs ++ rest) (cdecode_cencode vs.len (wencodeL vs ++ rest)),
            ihl vs hsz f rest hw]
      | vpairs ps =>
        have hsz : msizeP ps ≤ n := by simp only [msize] at hv; omega
        have hw : weightP ps ≤ f := by simp only [weight] at h; omega
        by_cases hn : ps.len < DATA_MASK
        · simp only [wencode, if_pos hn, List.cons_append]
          rw [wdecode_pairs_inline f ps.len hn (wencodeP ps ++ rest),
            ihp ps hsz f rest hw]
        · simp only [wencode, if_neg hn, List.cons_append, List.append_assoc]
          rw [wdecode_pairs_out_ok f ps.len (cencode ps.len ++ (wencodeP ps ++ rest))
            (wencodeP ps ++ rest) (cdecode_cencode ps.len (wencodeP ps ++ rest)),
            ihp ps hsz f rest hw]
    · obtain ⟨f, rfl⟩ : ∃ f, fuel = f + 1 := by
        have := weightL_pos vs
        cases fuel
        · omega
        · exact ⟨_, rfl⟩
      cases vs with
      | nil =>
        simp only [wencodeL, VList.len, List.nil_append]
        exact wdecodeL_zero f rest
      | cons v t =>
        have hsv : msize v ≤ n := by simp only [msizeL] at hvs; omega
        have hst : msizeL t ≤ n := by simp only [msizeL] at hvs; omega
        have hwv : weight v ≤ f := by simp only [weightL] at h; omega
        have hwt : weightL t ≤ f := by simp only [weightL] at h; omega
        simp only [wencodeL, VList.len, List.append_assoc]
        rw [wdecodeL_succ_ok f t.len (wencode v ++ (wencodeL t ++ rest))
          (wencodeL t ++ rest) v (ihv v hsv f (wencodeL t ++ rest) hwv),
          ihl t hst f rest hwt]
    · obtain ⟨f, rfl⟩ : ∃ f, fuel = f + 1 := by
        have := weightP_pos ps
        cases fuel
        · omega
        · exact ⟨_, rfl⟩
      cases ps with
      | nil =>
        simp only [wencodeP, VPairs.len, List.nil_append]
        exact wdecodeP_zero f rest
      | cons k v t =>
        have hsk : msize k ≤ n := by simp only [msizeP] at hps; omega
        have hsv : msize v ≤ n := by simp only [msizeP] at hps; omega
        have hst : msizeP t ≤ n := by simp only [msizeP] at hps; omega
        have hwk : weight k ≤ f := by simp only [weightP] at h; omega
        have hwv : weight v ≤ f := by simp only [weightP] at h; omega
        have hwt : weightP t ≤ f := by simp only [weightP] at h; omega
        simp only [wencodeP, VPairs.len, List.append_assoc]
        rw [wdecodeP_succ_kv f t.len
          (wencode k ++ (wencode v ++ (wencodeP t ++ rest)))
          (wencode v ++ (wencodeP t ++ rest)) (wencodeP t ++ rest) k v
          (ihv k hsk f (wencode v ++ (wencodeP t ++ rest)) hwk)
          (ihv v hsv f (wencodeP t ++ rest) hwv),
          ihp t hst f rest hwt]

/-- Round-trip for a single wire value, with any suffix and sufficient fuel. -/
theorem rt_v (v : Value) (fuel : Nat) (rest : List Nat) (h : weight v ≤ fuel) :
    wdecode fuel (wencode v ++ rest) = .ok (v, rest) :=
  (rt_main (msize v)).1 v le_rfl fuel rest h

/-! ### Correctness of the configured numeric codecs -/

theorem leBytes_length (w : Nat) : ∀ n, (leBytes w n).length = w := by
  induction w with
  | zero => intro n; rfl
  | succ w ih => intro n; simp [leBytes, ih]

theorem leVal_leBytes (w : Nat) : ∀ n, n < 256 ^ w → leVal (leBytes w n) = n := by
  induction w with
  | zero =>
    intro n h
    have h1 : n = 0 := by
      have h2 : n < 1 := by simpa using h
      omega
    simp [leBytes, leVal, h1]
  | succ w ih =>
    intro n h
    have h2 : 256 ^ (w + 1) = 256 ^ w * 256 := pow_succ 256 w
    simp only [leBytes, leVal]
    rw [ih (n / 256) (by rw [h2] at h; omega)]
    omega

theorem fixedDecode_fixedEncode (e : Endianness) (w n : Nat) (rest : List Nat)
    (h : n < 256 ^ w) :
    fixedDecode e w (fixedEncode e w n ++ rest) = .ok (n, rest) := by
  cases e with
  | little =>
    simp only [fixedDecode, fixedEncode]
    have hlen : (leBytes w n).length = w := leBytes_length w n
    rw [if_neg (by simp only [List.length_append, hlen]; omega)]
    rw [List.take_left' hlen, List.drop_left' hlen, leVal_leBytes w n h]
  | big =>
    simp only [fixedDecode, fixedEncode]
    have hlen : (leBytes w n).reverse.length = w := by simp [leBytes_length]
    rw [if_neg (by simp only [List.length_append, hlen]; omega)]
    rw [List.take_left' hlen, List.drop_left' hlen, List.reverse_reverse,
      leVal_leBytes w n h]

theorem toTwos_lt (i : Int) : toTwos i < 18446744073709551616 := by
  unfold toTwos
  omega

theorem fromTwos_toTwos (i : Int) (h1 : -9223372036854775808 ≤ i)
    (h2 : i < 9223372036854775808) : fromTwos (toTwos i) = i := by
  unfold fromTwos toTwos
  split <;> omega

theorem udecode_uencode (L : UsizeEncoding) (n : Nat) (rest : List Nat)
    (h : lenOK L n = true) : udecode L (uencode L n ++ rest) = .ok (n, rest) := by
  cases L with
  | Variable =>
    simp only [uencode, udecode]
    exact cdecode_cencode n rest
  | FixedLength w =>
    simp only [lenOK, decide_eq_true_eq] at h
    simp only [uencode, udecode]
    exact fixedDecode_fixedEncode .big w n rest h

theorem idecode_iencode (I : IntegerEncoding) (i : Int) (rest : List Nat)
    (h : intOK I i = true) : idecode I (iencode I i ++ rest) = .ok (i, rest) := by
  cases I with
  | Variable =>
    simp only [iencode, idecode, cdecode_cencode, unzigzag_zigzag]
  | Fixed e =>
    simp only [intOK, decide_eq_true_eq] at h
    simp only [iencode, idecode]
    rw [fixedDecode_fixedEncode e 8 (toTwos i) rest (by
      have hb := toTwos_lt i
      have h8 : (256 : Nat) ^ 8 = 18446744073709551616 := by norm_num
      omega)]
    show Except.ok (fromTwos (toTwos i), rest) = Except.ok (i, rest)
    rw [fromTwos_toTwos i h.1 h.2]

/-! ### Configured decoder step lemmas -/

theorem wdecodeC_byte_inline (C : WireEncoding) (f b : Nat) (hb : b < DATA_MASK)
    (input : List Nat) :
    wdecodeC C (f + 1) ((Tag.new .Byte b).byte :: input) = .ok (.vbyte b, input) := by
  simp only [wdecodeC, Tag.from_byte_byte, Tag.new_kind, Tag.new_data, if_pos hb]

theorem wdecodeC_byte_out_ok (C : WireEncoding) (f n : Nat) (input r : List Nat)
    (h : udecode C.l input = .ok (n, r)) :
    wdecodeC C (f + 1) ((Tag.empty .Byte).byte :: input) = .ok (.vbyte n, r) := by
  simp only [wdecodeC, Tag.from_byte_byte, Tag.empty_kind, Tag.empty_data, h]

theorem wdecodeC_cont_inline (C : WireEncoding) (f d : Nat) (hd : d < DATA_MASK)
    (input : List Nat) :
    wdecodeC C (f + 1) ((Tag.new .Continuation d).byte :: input) =
      .ok (.vint (unzigzag d), input) := by
  simp only [wdecodeC, Tag.from_byte_byte, Tag.new_kind, Tag.new_data, if_pos hd]

theorem wdecodeC_cont_out_ok (C : WireEncoding) (f : Nat) (n : Int)
    (input r : List Nat) (h : idecode C.i input = .ok (n, r)) :
    wdecodeC C (f + 1) ((Tag.empty .Continuation).byte :: input) =
      .ok (.vint n, r) := by
  simp only [wdecodeC, Tag.from_byte_byte, Tag.empty_kind, Tag.empty_data, h]

theorem wdecodeC_prefix_inline (C : WireEncoding) (f len : Nat)
    (hl : len < DATA_MASK) (input : List Nat) :
    wdecodeC C (f + 1) ((Tag.new .Prefix len).byte :: input) =
      if len ≤ input.length then .ok (.vbytes (input.take len), input.drop len)
      else .error .bufferExhausted := by
  simp only [wdecodeC, Tag.from_byte_byte, Tag.new_kind, readUsizeC, Tag.new_data,
    if_pos hl]

theorem wdecodeC_prefix_out_ok (C : WireEncoding) (f len : Nat) (input r : List Nat)
    (h : udecode C.l input = .ok (len, r)) :
    wdecodeC C (f + 1) ((Tag.empty .Prefix).byte :: input) =
      if len ≤ r.length then .ok (.vbytes (r.take len), r.drop len)
      else .error .bufferExhausted := by
  simp only [wdecodeC, Tag.from_byte_byte, Tag.empty_kind, readUsizeC,
    Tag.empty_data, h]

theorem wdecodeC_seq_inline (C : WireEncoding) (f cnt : Nat) (hn : cnt < DATA_MASK)
    (input : List Nat) :
    wdecodeC C (f + 1) ((Tag.new .Sequence cnt).byte :: input) =
      match wdecodeCL C f cnt input with
      | .error e => .error e
      | .ok (vs, r2) => .ok (.vseq vs, r2) := by
  simp only [wdecodeC, Tag.from_byte_byte, Tag.new_kind, readUsizeC, Tag.new_data,
    if_pos hn]

theorem wdecodeC_seq_out_ok (C : WireEncoding) (f cnt : Nat) (input r : List Nat)
    (h : udecode C.l input = .ok (cnt, r)) :
    wdecodeC C (f + 1) ((Tag.empty .Sequence).byte :: input) =
      match wdecodeCL C f cnt r with
      | .error e => .error e
      | .ok (vs, r2) => .ok (.vseq vs, r2) := by
  simp only [wdecodeC, Tag.from_byte_byte, Tag.empty_kind, readUsizeC,
    Tag.empty_data, h]

theorem wdecodeC_pairs_inline (C : WireEncoding) (f cnt : Nat) (hn : cnt < DATA_MASK)
    (input : List Nat) :
    wdecodeC C (f + 1) ((Tag.new .PairSequence cnt).byte :: input) =
      match wdecodeCP C f cnt input with
      | .error e => .error e
      | .ok (ps, r2) => .ok (.vpairs ps, r2) := by
  simp only [wdecodeC, Tag.from_byte_byte, Tag.new_kind, readUsizeC, Tag.new_data,
    if_pos hn]

theorem wdecodeC_pairs_out_ok (C : WireEncoding) (f cnt : Nat) (input r : List Nat)
    (h : udecode C.l input = .ok (cnt, r)) :
    wdecodeC C (f + 1) ((Tag.empty .PairSequence).byte :: input) =
      match wdecodeCP C f cnt r with
      | .error e => .error e
      | .ok (ps, r2) => .ok (.vpairs ps, r2) := by
  simp only [wdecodeC, Tag.from_byte_byte, Tag.empty_kind, readUsizeC,
    Tag.empty_data, h]

theorem wdecodeCL_zero (C : WireEncoding) (f : Nat) (input : List Nat) :
    wdecodeCL C (f + 1) 0 input = .ok (.nil, input) := by
  simp [wdecodeCL]

theorem wdecodeCL_succ_ok (C : WireEncoding) (f cnt : Nat) (input r : List Nat)
    (v : Value) (h : wdecodeC C f input = .ok (v, r)) :
    wdecodeCL C (f + 1) (cnt + 1) input =
      match wdecodeCL C f cnt r with
      | .error e => .error e
      | .ok (vs, r2) => .ok (.cons v vs, r2) := by
  simp only [wdecodeCL, h]

theorem wdecodeCP_zero (C : WireEncoding) (f : Nat) (input : List Nat) :
    wdecodeCP C (f + 1) 0 input = .ok (.nil, input) := by
  simp [wdecodeCP]

theorem wdecodeCP_succ_kv (C : WireEncoding) (f cnt : Nat) (input r r2 : List Nat)
    (k v : Value) (hk : wdecodeC C f input = .ok (k, r))
    (hv : wdecodeC C f r = .ok (v, r2)) :
    wdecodeCP C (f + 1) (cnt + 1) input =
      match wdecodeCP C f cnt r2 with
      | .error e => .error e
      | .ok (ps, r3) => .ok (.cons k v ps, r3) := by
  simp only [wdecodeCP, hk, hv]

/-! ### Configured weight bounds -/

theorem wencodeC_length_pos (C : WireEncoding) (v : Value) :
    1 ≤ (wencodeC C v).length := by
  obtain ⟨ci, cl⟩ := C
  cases v <;> cases ci <;> (simp only [wencodeC]; try split) <;> simp

mutual

theorem weightC_le_twice (C : WireEncoding) (v : Value) :
    weight v ≤ 2 * (wencodeC C v).length := by
  cases v with
  | vbyte b =>
    simp only [wencodeC]
    split <;> simp [weight] <;> omega
  | vint i =>
    rcases C with ⟨ci, cl⟩
    cases ci <;> simp only [wencodeC] <;> (try split) <;> simp [weight] <;> omega
  | vbytes bs =>
    simp only [wencodeC]
    split <;> simp [weight] <;> omega
  | vseq vs =>
    have h := weightCL_le_twice C vs
    simp only [wencodeC, weight]
    split <;> simp <;> omega
  | vpairs ps =>
    have h := weightCP_le_twice C ps
    simp only [wencodeC, weight]
    split <;> simp <;> omega

theorem weightCL_le_twice (C : WireEncoding) (vs : VList) :
    weightL vs ≤ 2 * (wencodeCL C vs).length + 1 := by
  cases vs with
  | nil => simp [weightL, wencodeCL]
  | cons v t =>
    have h1 := weightC_le_twice C v
    have h2 := weightCL_le_twice C t
    have h3 := wencodeC_length_pos C v
    simp only [weightL, wencodeCL, List.length_append]
    omega

theorem weightCP_le_twice (C : WireEncoding) (ps : VPairs) :
    weightP ps ≤ 2 * (wencodeCP C ps).length + 1 := by
  cases ps with
  | nil => simp [weightP, wencodeCP]
  | cons k v t =>
    have h1 := weightC_le_twice C k
    have h2 := weightC_le_twice C v
    have h3 := weightCP_le_twice C t
    have h4 := wencodeC_length_pos C k
    simp only [weightP, wencodeCP, List.length_append]
    omega

end

/-- Round-trip under an arbitrary configuration, proved for values, sequence
spines and pair spines at once by strong induction on the structural size:
decoding the configured encoding of an encodable value (with any suffix and
sufficient fuel) returns the original and the suffix. -/
theorem rtC_main (C : WireEncoding) (n : Nat) :
    (∀ v : Value, msize v ≤ n → encodableB C v = true → ∀ fuel rest,
      weight v ≤ fuel → wdecodeC C fuel (wencodeC C v ++ rest) = .ok (v, rest)) ∧
    (∀ vs : VList, msizeL vs ≤ n → encodableLB C vs = true → ∀ fuel rest,
      weightL vs ≤ fuel →
      wdecodeCL C fuel vs.len (wencodeCL C vs ++ rest) = .ok (vs, rest)) ∧
    (∀ ps : VPairs, msizeP ps ≤ n → encodablePB C ps = true → ∀ fuel rest,
      weightP ps ≤ fuel →
      wdecodeCP C fuel ps.len (wencodeCP C ps ++ rest) = .ok (ps, rest)) := by
  induction n with
  | zero =>
    refine ⟨fun v hv => ?_, fun vs hvs => ?_, fun ps hps => ?_⟩
    · cases v <;> simp [msize] at hv
    · cases vs <;> simp [msizeL] at hvs
    · cases ps <;> simp [msizeP] at hps
  | succ n ih =>
    obtain ⟨ihv, ihl, ihp⟩ := ih
    refine ⟨fun v hv he fuel rest h => ?_, fun vs hvs he fuel rest h => ?_,
      fun ps hps he fuel rest h => ?_⟩
    · obtain ⟨f, rfl⟩ : ∃ f, fuel = f + 1 := by
        have := weight_pos v
        cases fuel
        · omega
        · exact ⟨_, rfl⟩
      cases v with
      | vbyte b =>
        simp only [encodableB] at he
        by_cases hb : b < DATA_MASK
        · simp only [wencodeC, if_pos hb, List.cons_append, List.nil_append]
          rw [wdecodeC_byte_inline C f b hb rest]
        · simp only [wencodeC, if_neg hb, List.cons_append]
          rw [wdecodeC_byte_out_ok C f b (uencode C.l b ++ rest) rest
            (udecode_uencode C.l b rest he)]
      | vint i =>
        simp only [encodableB] at he
        cases hci : C.i with
        | Variable =>
          by_cases hz : zigzag i < DATA_MASK
          · simp only [wencodeC, hci, if_pos hz, List.cons_append, List.nil_append]
            rw [wdecodeC_cont_inline C f (zigzag i) hz rest, unzigzag_zigzag]
          · simp only [wencodeC, hci, if_neg hz, List.cons_append]
            rw [wdecodeC_cont_out_ok C f i (iencode .Variable i ++ rest) rest
              (by rw [hci]; exact idecode_iencode .Variable i rest rfl)]
        | Fixed e =>
          simp only [wencodeC, hci, List.cons_append]
          rw [wdecodeC_cont_out_ok C f i (iencode (.Fixed e) i ++ rest) rest
            (by rw [hci]; exact idecode_iencode (.Fixed e) i rest (hci ▸ he))]
      | vbytes bs =>
        simp only [encodableB] at he
        by_cases hl : bs.length < DATA_MASK
        · simp only [wencodeC, if_pos hl, List.cons_append]
          rw [wdecodeC_prefix_inline C f bs.length hl (bs ++ rest),
            if_pos (by simp), List.take_left, List.drop_left]
        · simp only [wencodeC, if_neg hl, List.cons_append, List.append_assoc]
          rw [wdecodeC_prefix_out_ok C f bs.length
            (uencode C.l bs.length ++ (bs ++ rest)) (bs ++ rest)
            (udecode_uencode C.l bs.length (bs ++ rest) he),
            if_pos (by simp), List.take_left, List.drop_left]
      | vseq vs =>
        simp only [encodableB, Bool.and_eq_true] at he
        have hsz : msizeL vs ≤ n := by simp only [msize] at hv; omega
        have hw : weightL vs ≤ f := by simp only [weight] at h; omega
        by_cases hn : vs.len < DATA_MASK
        · simp only [wencodeC, if_pos hn, List.cons_append]
          rw [wdecodeC_seq_inline C f vs.len hn (wencodeCL C vs ++ rest),
            ihl vs hsz he.2 f rest hw]
        · simp only [wencodeC, if_neg hn, List.cons_append, List.append_assoc]
          rw [wdecodeC_seq_out_ok C f vs.len
            (uencode C.l vs.len ++ (wencodeCL C vs ++ rest)) (wencodeCL C vs ++ rest)
            (udecode_uencode C.l vs.len (wencodeCL C vs ++ rest) he.1),
            ihl vs hsz he.2 f rest hw]
      | vpairs ps =>
        simp only [encodableB, Bool.and_eq_true] at he
        have hsz : msizeP ps ≤ n := by simp only [msize] at hv; omega
        have hw : weightP ps ≤ f := by simp only [weight] at h; omega
        by_cases hn : ps.len < DATA_MASK
        · simp only [wencodeC, if_pos hn, List.cons_append]
          rw [wdecodeC_pairs_inline C f ps.len hn (wencodeCP C ps ++ rest),
            ihp ps hsz he.2 f rest hw]
        · simp only [wencodeC, if_neg hn, List.cons_append, List.append_assoc]
          rw [wdecodeC_pairs_out_ok C f ps.len
            (uencode C.l ps.len ++ (wencodeCP C ps ++ rest)) (wencodeCP C ps ++ rest)
            (udecode_uencode C.l ps.len (wencodeCP C ps ++ rest) he.1),
            ihp ps hsz he.2 f rest hw]
    · obtain ⟨f, rfl⟩ : ∃ f, fuel = f + 1 := by
        have := weightL_pos vs
        cases fuel
        · omega
        · exact ⟨_, rfl⟩
      cases vs with
      | nil =>
        simp only [wencodeCL, VList.len, List.nil_append]
        exact wdecodeCL_zero C f rest
      | cons v t =>
        simp only [encodableLB, Bool.and_eq_true] at he
        have hsv : msize v ≤ n := by simp only [msizeL] at hvs; omega
        have hst : msizeL t ≤ n := by simp only [msizeL] at hvs; omega
        have hwv : weight v ≤ f := by simp only [weightL] at h; omega
        have hwt : weightL t ≤ f := by simp only [weightL] at h; omega
        simp only [wencodeCL, VList.len, List.append_assoc]
        rw [wdecodeCL_succ_ok C f t.len (wencodeC C v ++ (wencodeCL C t ++ rest))
          (wencodeCL C t ++ rest) v (ihv v hsv he.1 f (wencodeCL C t ++ rest) hwv),
          ihl t hst he.2 f rest hwt]
    · obtain ⟨f, rfl⟩ : ∃ f, fuel = f + 1 := by
        have := weightP_pos ps
        cases fuel
        · omega
        · exact ⟨_, rfl⟩
      cases ps with
      | nil =>
        simp only [wencodeCP, VPairs.len, List.nil_append]
        exact wdecodeCP_zero C f rest
      | cons k v t =>
        simp only [encodablePB, Bool.and_eq_true] at he
        have hsk : msize k ≤ n := by simp only [msizeP] at hps; omega
        have hsv : msize v ≤ n := by simp only [msizeP] at hps; omega
        have hst : msizeP t ≤ n := by simp only [msizeP] at hps; omega
        have hwk : weight k ≤ f := by simp only [weightP] at h; omega
        have hwv : weight v ≤ f := by simp only [weightP] at h; omega
        have hwt : weightP t ≤ f := by simp only [weightP] at h; omega
        simp only [wencodeCP, VPairs.len, List.append_assoc]
        rw [wdecodeCP_succ_kv C f t.len
          (wencodeC C k ++ (wencodeC C v ++ (wencodeCP C t ++ rest)))
          (wencodeC C v ++ (wencodeCP C t ++ rest)) (wencodeCP C t ++ rest) k v
          (ihv k hsk he.1.1 f (wencodeC C v ++ (wencodeCP C t ++ rest)) hwk)
          (ihv v hsv he.1.2 f (wencodeCP C t ++ rest) hwv),
          ihp t hst he.2 f rest hwt]

/-- Round-trip for a single encodable wire value under any configuration. -/
theorem rtC_v (C : WireEncoding) (v : Value) (fuel : Nat) (rest : List Nat)
    (he : encodableB C v = true) (h : weight v ≤ fuel) :
    wdecodeC C fuel (wencodeC C v ++ rest) = .ok (v, rest) :=
  (rtC_main C (msize v)).1 v le_rfl he fuel rest h

/-! ### Truncated input -/

theorem cencode_length_pos (n : Nat) : 1 ≤ (cencode n).length := by
  rw [cencode]
  split <;> simp

theorem wdecodeL_empty (fuel cnt : Nat) (h : 1 ≤ cnt) :
    wdecodeL fuel cnt [] = .error .bufferExhausted := by
  cases fuel with
  | zero => simp [wdecodeL]
  | succ f =>
    cases cnt with
    | zero => omega
    | succ c => exact wdecodeL_succ_err f c [] _ (wdecode_nil_input f)

theorem wdecodeP_empty (fuel cnt : Nat) (h : 1 ≤ cnt) :
    wdecodeP fuel cnt [] = .error .bufferExhausted := by
  cases fuel with
  | zero => simp [wdecodeP]
  | succ f =>
    cases cnt with
    | zero => omega
    | succ c => exact wdecodeP_succ_err1 f c [] _ (wdecode_nil_input f)

/-- Truncation, proved for values, sequence spines and pair spines at once:
decoding any strict prefix of a valid encoding fails with the buffer
exhausted condition (given the fuel margin the entry point provides). -/
theorem tr_main (n : Nat) :
    (∀ v : Value, msize v ≤ n → ∀ fuel p q, wencode v = p ++ q → q ≠ [] →
      2 * p.length < fuel → wdecode fuel p = .error .bufferExhausted) ∧
    (∀ vs : VList, msizeL vs ≤ n → ∀ fuel p q, wencodeL vs = p ++ q → q ≠ [] →
      2 * p.length + 1 < fuel → wdecodeL fuel vs.len p = .error .bufferExhausted) ∧
    (∀ ps : VPairs, msizeP ps ≤ n → ∀ fuel p q, wencodeP ps = p ++ q → q ≠ [] →
      2 * p.length + 1 < fuel → wdecodeP fuel ps.len p = .error .bufferExhausted) := by
  induction n with
  | zero =>
    refine ⟨fun v hv => ?_, fun vs hvs => ?_, fun ps hps => ?_⟩
    · cases v <;> simp [msize] at hv
    · cases vs <;> simp [msizeL] at hvs
    · cases ps <;> simp [msizeP] at hps
  | succ n ih =>
    obtain ⟨ihv, ihl, ihp⟩ := ih
    refine ⟨fun v hv fuel p q henc hq hf => ?_, fun vs hvs fuel p q henc hq hf => ?_,
      fun ps hps fuel p q henc hq hf => ?_⟩
    · cases p with
      | nil => exact wdecode_nil_input fuel
      | cons a p0 =>
        obtain ⟨f, rfl⟩ : ∃ f, fuel = f + 1 := by
          cases fuel
          · omega
          · exact ⟨_, rfl⟩
        have hple : 2 * p0.length + 2 < f + 1 := by
          simp only [List.length_cons] at hf
          omega
        cases v with
        | vbyte b =>
          by_cases hb : b < DATA_MASK
          · simp only [wencode, if_pos hb, List.cons_append, List.cons.injEq] at henc
            exact absurd (List.append_eq_nil.mp henc.2.symm).2 hq
          · simp only [wencode, if_neg hb, List.cons_append, List.cons.injEq] at henc
            obtain ⟨rfl, henc⟩ := henc
            exact wdecode_byte_out_err f _ p0 (cencode_trunc b p0 q henc hq)
        | vint i =>
          by_cases hz : zigzag i < DATA_MASK
          · simp only [wencode, if_pos hz, List.cons_append, List.cons.injEq] at henc
            exact absurd (List.append_eq_nil.mp henc.2.symm).2 hq
          · simp only [wencode, if_neg hz, List.cons_append, List.cons.injEq] at henc
            obtain ⟨rfl, henc⟩ := henc
            exact wdecode_cont_out_err f _ p0 (cencode_trunc (zigzag i) p0 q henc hq)
        | vbytes bs =>
          by_cases hl : bs.length < DATA_MASK
          · simp only [wencode, if_pos hl, List.cons_append, List.cons.injEq] at henc
            obtain ⟨rfl, henc⟩ := henc
            rw [wdecode_prefix_inline f bs.length hl p0]
            have hlen : ¬ bs.length ≤ p0.length := by
              have hll := congrArg List.length henc
              simp only [List.length_append] at hll
              cases q with
              | nil => exact absurd rfl hq
              | cons c q0 => simp only [List.length_cons] at hll; omega
            rw [if_neg hlen]
          · simp only [wencode, if_neg hl, List.cons_append, List.cons.injEq] at henc
            obtain ⟨rfl, henc⟩ := henc
            rcases List.append_eq_append_iff.mp henc with ⟨x, hx1, hx2⟩ | ⟨x, hx1, hx2⟩
            · -- truncation inside the payload
              subst hx1
              rw [wdecode_prefix_out_ok f bs.length _ x (cdecode_cencode bs.length x)]
              have hlen : ¬ bs.length ≤ x.length := by
                have hll := congrArg List.length hx2
                simp only [List.length_append] at hll
                cases q with
                | nil => exact absurd rfl hq
                | cons c q0 => simp only [List.length_cons] at hll; omega
              rw [if_neg hlen]
            · -- truncation inside (or exactly at the end of) the varint length
              cases x with
              | nil =>
                rw [List.append_nil] at hx1
                subst hx1
                have hcd : cdecode (cencode bs.length) = .ok (bs.length, []) := by
                  have hc0 := cdecode_cencode bs.length []
                  rwa [List.append_nil] at hc0
                rw [wdecode_prefix_out_ok f bs.length _ [] hcd,
                  if_neg (by simp only [List.length_nil]; unfold DATA_MASK at hl; omega)]
              | cons c c0 =>
                exact wdecode_prefix_out_err f _ p0
                  (cencode_trunc bs.length p0 (c :: c0) hx1 (by simp))
        | vseq vs =>
          have hsz : msizeL vs ≤ n := by simp only [msize] at hv; omega
          by_cases hn : vs.len < DATA_MASK
          · simp only [wencode, if_pos hn, List.cons_append, List.cons.injEq] at henc
            obtain ⟨rfl, henc⟩ := henc
            rw [wdecode_seq_inline f vs.len hn p0,
              ihl vs hsz f p0 q henc hq (by omega)]
          · simp only [wencode, if_neg hn, List.cons_append, List.cons.injEq] at henc
            obtain ⟨rfl, henc⟩ := henc
            rcases List.append_eq_append_iff.mp henc with ⟨x, hx1, hx2⟩ | ⟨x, hx1, hx2⟩
            · -- truncation among the elements
              subst hx1
              rw [wdecode_seq_out_ok f vs.len _ x (cdecode_cencode vs.len x)]
              have hxlen : 2 * x.length + 1 < f := by
                have hcp := cencode_length_pos vs.len
                simp only [List.length_append] at hple
                omega
              rw [ihl vs hsz f x q hx2 hq hxlen]
            · -- truncation inside (or exactly at the end of) the varint count
              cases x with
              | nil =>
                rw [List.append_nil] at hx1
                subst hx1
                have hcd : cdecode (cencode vs.len) = .ok (vs.len, []) := by
                  have hc0 := cdecode_cencode vs.len []
                  rwa [List.append_nil] at hc0
                rw [wdecode_seq_out_ok f vs.len _ [] hcd,
                  wdecodeL_empty f vs.len (by unfold DATA_MASK at hn; omega)]
              | cons c c0 =>
                exact wdecode_seq_out_err f _ p0
                  (cencode_trunc vs.len p0 (c :: c0) hx1 (by simp))
        | vpairs ps =>
          have hsz : msizeP ps ≤ n := by simp only [msize] at hv; omega
          by_cases hn : ps.len < DATA_MASK
          · simp only [wencode, if_pos hn, List.cons_append, List.cons.injEq] at henc
            obtain ⟨rfl, henc⟩ := henc
            rw [wdecode_pairs_inline f ps.len hn p0,
              ihp ps hsz f p0 q henc hq (by omega)]
          · simp only [wencode, if_neg hn, List.cons_append, List.cons.injEq] at henc
            obtain ⟨rfl, henc⟩ := henc
            rcases List.append_eq_append_iff.mp henc with ⟨x, hx1, hx2⟩ | ⟨x, hx1, hx2⟩
            · subst hx1
              rw [wdecode_pairs_out_ok f ps.len _ x (cdecode_cencode ps.len x)]
              have hxlen : 2 * x.length + 1 < f := by
                have hcp := cencode_length_pos ps.len
                simp only [List.length_append] at hple
                omega
              rw [ihp ps hsz f x q hx2 hq hxlen]
            · cases x with
              | nil =>
                rw [List.append_nil] at hx1
                subst hx1
                have hcd : cdecode (cencode ps.len) = .ok (ps.len, []) := by
                  have hc0 := cdecode_cencode ps.len []
                  rwa [List.append_nil] at hc0
                rw [wdecode_pairs_out_ok f ps.len _ [] hcd,
                  wdecodeP_empty f ps.len (by unfold DATA_MASK at hn; omega)]
              | cons c c0 =>
                exact wdecode_pairs_out_err f _ p0
                  (cencode_trunc ps.len p0 (c :: c0) hx1 (by simp))
    · cases vs with
      | nil =>
        simp only [wencodeL] at henc
        exact absurd (List.append_eq_nil.mp henc.symm).2 hq
      | cons v t =>
        have hsv : msize v ≤ n := by simp only [msizeL] at hvs; omega
        have hst : msizeL t ≤ n := by simp only [msizeL] at hvs; omega
        obtain ⟨f, rfl⟩ : ∃ f, fuel = f + 1 := by
          cases fuel
          · omega
          · exact ⟨_, rfl⟩
        simp only [wencodeL] at henc
        simp only [VList.len]
        rcases List.append_eq_append_iff.mp henc with ⟨x, hx1, hx2⟩ | ⟨x, hx1, hx2⟩
        · -- the first element decodes; truncation is later in the spine
          subst hx1
          have hlen := wencode_length_pos v
          simp only [List.length_append] at hf
          have hwv : weight v ≤ f := by
            have hwt := weight_le_twice v
            omega
          rw [wdecodeL_succ_ok f t.len _ x v (rt_v v f x hwv)]
          have hxlen : 2 * x.length + 1 < f := by omega
          rw [ihl t hst f x q hx2 hq hxlen]
        · cases x with
          | nil =>
            rw [List.append_nil] at hx1
            subst hx1
            simp only [List.nil_append] at hx2
            have ht : 1 ≤ t.len := by
              cases t with
              | nil => rw [hx2] at hq; simp [wencodeL] at hq
              | cons v2 t2 => simp [VList.len]
            have hwv : weight v ≤ f := by
              have hwt := weight_le_twice v
              omega
            have hr := rt_v v f [] hwv
            rw [List.append_nil] at hr
            rw [wdecodeL_succ_ok f t.len _ [] v hr, wdecodeL_empty f t.len ht]
          | cons c c0 =>
            have herr := ihv v hsv f p (c :: c0) hx1 (by simp) (by omega)
            rw [wdecodeL_succ_err f t.len p _ herr]
    · cases ps with
      | nil =>
        simp only [wencodeP] at henc
        exact absurd (List.append_eq_nil.mp henc.symm).2 hq
      | cons k v t =>
        have hsk : msize k ≤ n := by simp only [msizeP] at hps; omega
        have hsv : msize v ≤ n := by simp only [msizeP] at hps; omega
        have hst : msizeP t ≤ n := by simp only [msizeP] at hps; omega
        obtain ⟨f, rfl⟩ : ∃ f, fuel = f + 1 := by
          cases fuel
          · omega
          · exact ⟨_, rfl⟩
        simp only [wencodeP] at henc
        simp only [VPairs.len]
        rcases List.append_eq_append_iff.mp henc with ⟨x, hx1, hx2⟩ | ⟨x, hx1, hx2⟩
        · -- the key decodes; analyse the rest
          subst hx1
          have hlenk := wencode_length_pos k
          simp only [List.length_append] at hf
          have hwk : weight k ≤ f := by
            have hwt := weight_le_twice k
            omega
          have hrk := rt_v k f x hwk
          rcases List.append_eq_append_iff.mp hx2 with ⟨y, hy1, hy2⟩ | ⟨y, hy1, hy2⟩
          · -- the value decodes too; truncation is later in the spine
            subst hy1
            have hlenv := wencode_length_pos v
            simp only [List.length_append] at hf
            have hwv : weight v ≤ f := by
              have hwt := weight_le_twice v
              omega
            rw [wdecodeP_succ_kv f t.len _ _ y k v hrk (rt_v v f y hwv)]
            have hylen : 2 * y.length + 1 < f := by omega
            rw [ihp t hst f y q hy2 hq hylen]
          · cases y with
            | nil =>
              rw [List.append_nil] at hy1
              subst hy1
              simp only [List.nil_append] at hy2
              have ht : 1 ≤ t.len := by
                cases t with
                | nil =>
                  rw [hy2] at hq
                  exact absurd (show wencodeP VPairs.nil = [] from rfl) hq
                | cons k2 v2 t2 => simp [VPairs.len]
              have hwv : weight v ≤ f := by
                have hwt := weight_le_twice v
                omega
              have hrv := rt_v v f [] hwv
              rw [List.append_nil] at hrv
              rw [wdecodeP_succ_kv f t.len _ _ [] k v hrk hrv,
                wdecodeP_empty f t.len ht]
            | cons c c0 =>
              have herr := ihv v hsv f x (c :: c0) hy1 (by simp) (by omega)
              rw [wdecodeP_succ_err2 f t.len _ x k _ hrk herr]
        · cases x with
          | nil =>
            rw [List.append_nil] at hx1
            subst hx1
            have hwk : weight k ≤ f := by
              have hwt := weight_le_twice k
              omega
            have hrk := rt_v k f [] hwk
            rw [List.append_nil] at hrk
            rw [wdecodeP_succ_err2 f t.len _ [] k _ hrk (wdecode_nil_input f)]
          | cons c c0 =>
            have herr := ihv k hsk f p (c :: c0) hx1 (by simp) (by omega)
            rw [wdecodeP_succ_err1 f t.len p _ herr]

/-- Truncation for a single wire value. -/
theorem tr_v (v : Value) (fuel : Nat) (p q : List Nat) (henc : wencode v = p ++ q)
    (hq : q ≠ []) (hf : 2 * p.length < fuel) :
    wdecode fuel p = .error .bufferExhausted :=
  (tr_main (msize v)).1 v le_rfl fuel p q henc hq hf


/-! ### The claims -/

/-- C1: the round-trip law holds for every configuration, used identically
on both sides: for every configuration `C` of `WireEncoding` (any
combination of `Variable`/`Fixed<E>` integer encodings and
`Variable`/`FixedLength` length encodings reachable through the `with_*`
builders of `encoding.rs`) and every wire value encodable under `C`,
decoding the bytes produced by encoding it under `C` yields the original
value; and in particular, under the default configuration,
`from_slice (to_vec v) = ok v` for every value, with no proviso. -/
theorem c1_wire_round_trip :
    (∀ (C : WireEncoding) (v : Value), WEncodable C v →
      C.from_slice (C.to_vec v) = .ok v) ∧
    (∀ v : Value, from_slice (to_vec v) = .ok v) := by
  constructor
  · intro C v he
    unfold WireEncoding.from_slice WireEncoding.to_vec
    have h := rtC_v C v (2 * (wencodeC C v).length + 1) [] he
      (by have := weightC_le_twice C v; omega)
    rw [List.append_nil] at h
    rw [h]
  · intro v
    unfold from_slice to_vec
    have h := rt_v v (2 * (wencode v).length + 1) []
      (by have := weight_le_twice v; omega)
    rw [List.append_nil] at h
    rw [h]

/-- Witness for C1 at a concrete non-default configuration: little-endian
fixed integers with 32-bit fixed lengths round-trip `testValue` (a sequence
holding the integer -5 and a 40-byte string, both encoded out of line). -/
theorem c1_wire_round_trip_witness :
    testConfig.from_slice (testConfig.to_vec testValue) = .ok testValue :=
  c1_wire_round_trip.1 testConfig testValue rfl

/-- C2: decoding any input that stops short of what its tags claim — i.e.
any strict prefix of a valid wire encoding — fails with the buffer-exhausted
error.  The decoder is a total function over the input list (it can neither
panic nor read outside the given slice by construction of the embedding). -/
theorem c2_truncated_input (v : Value) (p q : List Nat)
    (henc : wencode v = p ++ q) (hq : q ≠ []) :
    from_slice p = .error .bufferExhausted := by
  unfold from_slice
  rw [tr_v v (2 * p.length + 1) p q henc hq (by omega)]

/-- Witness for C2 at a concrete input: `[35, 1, 2]` is the encoding of the
byte string `[1, 2, 3]` cut one byte short (tag byte `35` is `Prefix` with
embedded length 3), and decoding it exhausts the buffer. -/
theorem c2_truncated_input_witness :
    from_slice [35, 1, 2] = .error .bufferExhausted :=
  c2_truncated_input (.vbytes [1, 2, 3]) [35, 1, 2] [3] rfl (by simp)

set_option maxRecDepth 4000 in
/-- C3: encoding the three-field test struct with a packed byte-array field
of length N, for N = 0, 23 and 62 (`MAX_INLINE_LEN`), produces exactly N + 9
bytes, and the byte at offset 5 is a Prefix-kind tag with the length N
embedded in its data field. -/
theorem c3_pack_max_framing :
    ((tag.encodeFrom (List.replicate 0 1)).length = 0 + 9 ∧
      (tag.encodeFrom (List.replicate 0 1))[5]? =
        some (tag.Tag.new .Prefix 0).byte ∧
      (tag.Tag.new .Prefix 0).kind = .Prefix ∧
      (tag.Tag.new .Prefix 0).data = some 0) ∧
    ((tag.encodeFrom (List.replicate 23 1)).length = 23 + 9 ∧
      (tag.encodeFrom (List.replicate 23 1))[5]? =
        some (tag.Tag.new .Prefix 23).byte ∧
      (tag.Tag.new .Prefix 23).kind = .Prefix ∧
      (tag.Tag.new .Prefix 23).data = some 23) ∧
    ((tag.encodeFrom (List.replicate tag.MAX_INLINE_LEN 1)).length =
        tag.MAX_INLINE_LEN + 9 ∧
      (tag.encodeFrom (List.replicate tag.MAX_INLINE_LEN 1))[5]? =
        some (tag.Tag.new .Prefix tag.MAX_INLINE_LEN).byte ∧
      (tag.Tag.new .Prefix tag.MAX_INLINE_LEN).kind = .Prefix ∧
      (tag.Tag.new .Prefix tag.MAX_INLINE_LEN).data = some tag.MAX_INLINE_LEN) := by
  decide

set_option maxRecDepth 4000 in
/-- C4: with a packed byte-array field of length 110 the same struct encodes
with a Pack-kind tag at offset 5 whose embedded field is the exponent 7,
total size 110 + 27, and 18 zero bytes starting at offset 110 + 6; with
length 200 the embedded field is 8 and the total size is 200 + 65. -/
theorem c4_pow2_framing :
    ((tag.encodeFrom (List.replicate 110 1)).length = 110 + 27 ∧
      (tag.encodeFrom (List.replicate 110 1))[5]? =
        some (tag.Tag.new .Pack 7).byte ∧
      (tag.Tag.new .Pack 7).kind = .Pack ∧
      (tag.Tag.new .Pack 7).data = some 7 ∧
      ((tag.encodeFrom (List.replicate 110 1)).drop (110 + 6)).take 18 =
        List.replicate 18 0) ∧
    ((tag.encodeFrom (List.replicate 200 1)).length = 200 + 65 ∧
      (tag.encodeFrom (List.replicate 200 1))[5]? =
        some (tag.Tag.new .Pack 8).byte ∧
      (tag.Tag.new .Pack 8).kind = .Pack ∧
      (tag.Tag.new .Pack 8).data = some 8) := by
  decide

/-- C5: `Tag::new` clamps the data field to `DATA_MASK` (31): for data below
31 the constructed tag reports `data() = Some(data)`, and for data at or
above 31 it reports `None`. -/
theorem c5_tag_data_round_trip (k : Kind) (d : Nat) :
    (Tag.new k d).data = if d < DATA_MASK then some d else none :=
  Tag.new_data k d

/-- C6: `Tag::from_byte` followed by `Tag::byte` is the identity on every
byte value (and indeed on every natural). -/
theorem c6_tag_byte_identity (b : Nat) : (Tag.from_byte b).byte = b := rfl

set_option maxRecDepth 4000 in
/-- C7: `Tag::kind` is total on all 256 byte values and returns exactly the
`Kind` variant whose discriminant is the byte with its low 5 bits masked
off — the eight 3-bit patterns (including the three Unknown variants) cover
every case, so the source's `transmute` can never fault. -/
theorem c7_tag_kind_total :
    ∀ b : Fin 256, ((Tag.from_byte b.val).kind).toU8 = b.val &&& 224 := by
  decide

/-- C8: `Ref::new` is infallible (a total function of the pointer alone — it
takes no buffer, so it can perform no bounds, alignment or bit-pattern
checks) and the resulting reference stores exactly the given pointer. -/
theorem c8_ref_new_defers_validation (T : Type) (p : zerocopy.Ptr) :
    (zerocopy.Ref.new T p).ptr = p := rfl

/-- C9: every `Tag` constructor preserves the kind bits: `new`, `empty`,
`with_len` and `with_byte` all produce tags whose `kind()` is the kind they
were given — clamping of the data field never alters the 3 kind bits. -/
theorem c9_tag_kind_preserved (k : Kind) (d len : Nat) :
    (Tag.new k d).kind = k ∧ (Tag.empty k).kind = k ∧
    (Tag.with_len k len).1.kind = k ∧ (Tag.with_byte k d).1.kind = k := by
  refine ⟨Tag.new_kind k d, Tag.empty_kind k, ?_, ?_⟩
  · unfold Tag.with_len
    split <;> exact Tag.new_kind k _
  · unfold Tag.with_byte
    split <;> exact Tag.new_kind k _

/-- C10: the provided `SequenceEncoder::push` is equivalent to
`encode_element` followed by `encode` on the returned element encoder: it
succeeds exactly when both steps succeed (propagating the final state), and
otherwise returns the first error produced. -/
theorem c10_push_characterization (σ El Ok ε V : Type)
    (E : SequenceEncoder σ El Ok ε V) (s : σ) (v : V) :
    (∀ s2 : σ, E.push s v = .ok ((), s2) ↔
      ∃ el s1 o, E.encode_element s = .ok (el, s1) ∧
        E.encode el v s1 = .ok (o, s2)) ∧
    (∀ e : ε, E.push s v = .error e ↔
      (E.encode_element s = .error e ∨
        ∃ el s1, E.encode_element s = .ok (el, s1) ∧
          E.encode el v s1 = .error e)) := by
  cases h1 : E.encode_element s with
  | error e0 =>
    have hp : E.push s v = .error e0 := by simp [SequenceEncoder.push, h1]
    refine ⟨fun s2 => ?_, fun e => ?_⟩ <;> simp [hp, h1]
  | ok pair =>
    obtain ⟨el, s1⟩ := pair
    cases h2 : E.encode el v s1 with
    | error e0 =>
      have hp : E.push s v = .error e0 := by simp [SequenceEncoder.push, h1, h2]
      refine ⟨fun s2 => ?_, fun e => ?_⟩
      · simp [hp, h1, h2]
      · simp [hp, h1]
        constructor
        · rintro rfl
          exact ⟨el, s1, ⟨rfl, rfl⟩, h2⟩
        · rintro ⟨el1, s11, ⟨rfl, rfl⟩, hee⟩
          rw [h2] at hee
          exact Except.error.inj hee
    | ok pair2 =>
      obtain ⟨o, s2x⟩ := pair2
      have hp : E.push s v = .ok ((), s2x) := by simp [SequenceEncoder.push, h1, h2]
      refine ⟨fun s2 => ?_, fun e => ?_⟩
      · simp [hp, h1]
        constructor
        · rintro rfl
          exact ⟨el, s1, ⟨rfl, rfl⟩, o, h2⟩
        · rintro ⟨el1, s11, ⟨rfl, rfl⟩, x, hee⟩
          rw [h2] at hee
          exact (Prod.mk.inj (Except.ok.inj hee)).2
      · simp [hp, h1, h2]
